import Mathlib

set_option maxRecDepth 100000

/-!
Verification of the content-addressed line-chunking and diff-reconstruction
engine described by the repository's specification.

The tests in `src/tests/main_test.py` import `CodeFile`, `CodeDiff`, `_hash`,
`_first` and `_last` from `learning_python.main`, but the module shipped under
`src/learning_python/main.py` is an unrelated columnar table engine and defines
none of those symbols.  The chunking/diff engine itself is therefore code of
this repository that is missing from `src/`; every definition below that embeds
it is modelled from the specification (see the doc comments), while the
definitions about the import structure of `learning_python.main` are taken
directly from the source files.
-/

namespace LearnPy

/-! ## Hash function (SHA-1), modelled from the spec §4.1 -/

/-- Truncate to 32 bits. -/
def w32 (n : Nat) : Nat := n % 4294967296

/-- Rotate a 32-bit value left by `b` bits (for `n < 2^32`, `b ≤ 32`). -/
def rotl (b n : Nat) : Nat := w32 (n * 2 ^ b) + n / 2 ^ (32 - b)

/-- Big-endian assembly of four bytes into one 32-bit word. -/
def bytesToWord (a b c d : Nat) : Nat := ((a * 256 + b) * 256 + c) * 256 + d

/-- Big-endian 8-byte encoding of a length in bits. -/
def bigEndian8 (n : Nat) : List Nat :=
  [ n / 2 ^ 56 % 256, n / 2 ^ 48 % 256, n / 2 ^ 40 % 256, n / 2 ^ 32 % 256,
    n / 2 ^ 24 % 256, n / 2 ^ 16 % 256, n / 2 ^ 8 % 256, n % 256 ]

/-- SHA-1 message padding: append `0x80`, zero bytes up to 56 mod 64, then the
bit length as an 8-byte big-endian integer. -/
def sha1pad (msg : List Nat) : List Nat :=
  msg ++ [128] ++ List.replicate ((120 - (msg.length + 1) % 64) % 64) 0
      ++ bigEndian8 (8 * msg.length)

/-- Group a byte list into big-endian 32-bit words. -/
def toWords : List Nat → List Nat
  | a :: b :: c :: d :: rest => bytesToWord a b c d :: toWords rest
  | _ => []

/-- Group a word list into blocks of 16 words (a padded message always splits
exactly). -/
def toBlocks : List Nat → List (List Nat)
  | w0 :: w1 :: w2 :: w3 :: w4 :: w5 :: w6 :: w7 ::
    w8 :: w9 :: w10 :: w11 :: w12 :: w13 :: w14 :: w15 :: rest =>
      [w0, w1, w2, w3, w4, w5, w6, w7, w8, w9, w10, w11, w12, w13, w14, w15] ::
      toBlocks rest
  | _ => []

/-- Extend a 16-word block, appending `k` further schedule words
`w[i] = rotl 1 (w[i-3] xor w[i-8] xor w[i-14] xor w[i-16])`. -/
def extendLoop : List Nat → Nat → List Nat
  | ws, 0 => ws
  | ws, k + 1 =>
      let n := ws.length
      extendLoop
        (ws ++ [rotl 1 (Nat.xor (Nat.xor (ws.getD (n - 3) 0) (ws.getD (n - 8) 0))
                        (Nat.xor (ws.getD (n - 14) 0) (ws.getD (n - 16) 0)))]) k

/-- The SHA-1 round function. -/
def sha1f (i b c d : Nat) : Nat :=
  if i < 20 then Nat.lor (Nat.land b c) (Nat.land (4294967295 - b) d)
  else if i < 40 then Nat.xor (Nat.xor b c) d
  else if i < 60 then Nat.lor (Nat.lor (Nat.land b c) (Nat.land b d)) (Nat.land c d)
  else Nat.xor (Nat.xor b c) d

/-- The SHA-1 round constants. -/
def sha1k (i : Nat) : Nat :=
  if i < 20 then 1518500249
  else if i < 40 then 1859775393
  else if i < 60 then 2400959708
  else 3395469782

/-- Run the 80 SHA-1 rounds over the schedule words. -/
def sha1rounds : Nat → Nat × Nat × Nat × Nat × Nat → List Nat → Nat × Nat × Nat × Nat × Nat
  | _, st, [] => st
  | i, (a, b, c, d, e), w :: ws =>
      sha1rounds (i + 1)
        (w32 (rotl 5 a + sha1f i b c d + e + sha1k i + w), a, rotl 30 b, c, d) ws

/-- Compress one 16-word block into the running hash state. -/
def sha1block (h : Nat × Nat × Nat × Nat × Nat) (block : List Nat) :
    Nat × Nat × Nat × Nat × Nat :=
  match sha1rounds 0 h (extendLoop block 64) with
  | (a, b, c, d, e) =>
      (w32 (h.1 + a), w32 (h.2.1 + b), w32 (h.2.2.1 + c), w32 (h.2.2.2.1 + d),
       w32 (h.2.2.2.2 + e))

/-- SHA-1 initial state. -/
def sha1init : Nat × Nat × Nat × Nat × Nat :=
  (1732584193, 4023233417, 2562383102, 271733878, 3285377520)

/-- Render a 32-bit word as 8 lowercase hex characters. -/
def hex8 (n : Nat) : String :=
  let ds := Nat.toDigits 16 n
  String.mk (List.replicate (8 - ds.length) '0' ++ ds)

/-- SHA-1 of a byte list, as a 40-character lowercase hex string. -/
def sha1bytes (msg : List Nat) : String :=
  match (toBlocks (toWords (sha1pad msg))).foldl sha1block sha1init with
  | (a, b, c, d, e) => hex8 a ++ hex8 b ++ hex8 c ++ hex8 d ++ hex8 e

/-- UTF-8 encoding of one character. -/
def utf8Char (ch : Char) : List Nat :=
  let n := ch.toNat
  if n < 128 then [n]
  else if n < 2048 then [192 + n / 64, 128 + n % 64]
  else if n < 65536 then [224 + n / 4096, 128 + n / 64 % 64, 128 + n % 64]
  else [240 + n / 262144, 128 + n / 4096 % 64, 128 + n / 64 % 64, 128 + n % 64]

/-- UTF-8 encoding of a string. -/
def utf8 (s : String) : List Nat := (s.data.map utf8Char).flatten

/-- Hex SHA-1 digest of the UTF-8 encoding of a string. -/
def sha1hex (s : String) : String := sha1bytes (utf8 s)

/-- Hash width `H`; the spec's default is 40 hex characters. -/
def hashLength : Nat := 40

/-- First `n` characters of a string (the spec truncates digests by character
count). -/
def firstChars (s : String) : Nat → String := fun n => String.mk (s.data.take n)

/-- Modelled from the spec §4.1 (the implementation is absent from `src/`):
`H(text)` takes an optional string and returns the first `H` hex characters of
SHA-1 of the UTF-8 encoding; `H(null)` yields the digest of the empty string. -/
def hashFn (text : Option String) : String :=
  firstChars (sha1hex (text.getD "")) hashLength

/-- Modelled from the spec §3: the `FIRST` sentinel boundary, `"0" * H`. -/
def FIRST : String := String.mk (List.replicate hashLength '0')

/-- Modelled from the spec §3: the `LAST` sentinel boundary, `"f" * H`. -/
def LAST : String := String.mk (List.replicate hashLength 'f')

/-! ## Data model, modelled from the spec §3 -/

/-- Modelled from the spec §3 (the implementation is absent from `src/`): a
`Line` is a triple of 0-based index, text value and `hash = H(value)`. -/
structure Line where
  index : Nat
  value : String
  hash : String
deriving DecidableEq

instance : Inhabited Line := ⟨⟨0, "", ""⟩⟩

/-- Modelled from the spec §3: a `Chunk` carries its two boundary digests, its
lines, and an optional revision timestamp (absent when freshly computed). -/
structure Chunk where
  start : String
  «end» : String
  lines : List Line
  timestamp : Option String
deriving DecidableEq

instance : Inhabited Chunk := ⟨⟨"", "", [], none⟩⟩

/-- Modelled from the spec §3: a `ChunkRef` is the four-field identity of a
chunk `(start, end, hash, timestamp)` without the line content. -/
structure ChunkRef where
  start : String
  «end» : String
  hash : String
  timestamp : String
deriving DecidableEq

instance : Inhabited ChunkRef := ⟨⟨"", "", "", ""⟩⟩

/-- Modelled from the spec §4.2: a `LineSet` built from a list of strings
assigns each entry its zero-based index and its hash. -/
def mkLines : Nat → List String → List Line
  | _, [] => []
  | i, v :: vs => ⟨i, v, hashFn (some v)⟩ :: mkLines (i + 1) vs

/-- The `LineSet` of a snapshot given as a list of line strings. -/
def lineSet (values : List String) : List Line := mkLines 0 values

/-- Modelled from the spec §4.2: a line is unique when its hash appears exactly
once in the set. -/
def isUniqueIn (ls : List Line) (l : Line) : Bool :=
  ls.countP (fun x => x.hash == l.hash) == 1

/-- Modelled from the spec §4.2: `unique()` keeps only those lines whose hash
appears exactly once, in index order. -/
def uniqueLines (ls : List Line) : List Line := ls.filter (isUniqueIn ls)

/-! ## Chunker, modelled from the spec §4.3 -/

/-- The inclusive slice `lines[a .. b]`. -/
def lineSlice (ls : List Line) (a b : Nat) : List Line :=
  (ls.drop a).take (b + 1 - a)

/-- Modelled from the spec §4.3, steps 2-4: walk the unique lines keeping the
previous boundary and the index of the next unprocessed line.  Each unique line
`u` closes the chunk `lines[s .. u.index]`; its end is `u.hash` unless `u` is
the last unique line and no line follows it, in which case the end is `LAST`.
A trailing chunk, when lines remain, ends at `LAST`. -/
def chunkEnd (ls : List Line) (u : Line) (us : List Line) : String :=
  if us = [] ∧ ls.length ≤ u.index + 1 then LAST else u.hash

def chunkAux (ls : List Line) : String → Nat → List Line → List Chunk
  | prev, s, [] => if s < ls.length then [⟨prev, LAST, ls.drop s, none⟩] else []
  | prev, s, u :: us =>
      ⟨prev, chunkEnd ls u us, lineSlice ls s u.index, none⟩ ::
      chunkAux ls (chunkEnd ls u us) (u.index + 1) us

/-- Modelled from the spec §4.3: `chunk(lineset)` segments a snapshot between
consecutive unique lines, starting from the `FIRST` sentinel. -/
def codeFileChunk (values : List String) : List Chunk :=
  chunkAux (lineSet values) FIRST 0 (uniqueLines (lineSet values))

/-- Boundary adjacency of two chunks (`a.end == b.start`). -/
def adjacent (a b : Chunk) : Prop := a.«end» = b.start

instance : DecidableRel adjacent := fun a b => by unfold adjacent; infer_instance

/-! ## Length-bounded split, modelled from the spec §4.3 -/

/-- Character count of one chunk: the summed lengths of its line values. -/
def charCount (c : Chunk) : Nat := (c.lines.map (fun l => l.value.length)).sum

/-- Concatenated character count of a run of chunks. -/
def runTotal (run : List Chunk) : Nat := (run.map charCount).sum

/-- Modelled from the spec §3/§4.3: a merged chunk inherits `start` from the
leftmost input and `end` from the rightmost; its lines are the concatenation of
the inputs' lines.  A fresh merge carries no timestamp. -/
def mergeRun (run : List Chunk) : Chunk :=
  ⟨(run.headD default).start, (run.getLastD default).«end»,
   (run.map Chunk.lines).flatten, none⟩

/-- Index of the first chunk whose running character total crosses half of
`t` (`acc` is the total of the chunks already passed). -/
def firstCross (t : Nat) : Nat → List Chunk → Nat
  | _, [] => 0
  | acc, c :: cs =>
      if t < 2 * (acc + charCount c) then 0 else 1 + firstCross t (acc + charCount c) cs

/-- Modelled from the spec §4.3: the split point after the midpoint pivot,
clamped so that both halves of a run of length at least two are non-empty. -/
def splitPoint (run : List Chunk) : Nat :=
  min (firstCross (runTotal run) 0 run + 1) (run.length - 1)

/-- Modelled from the spec §4.3: recursively split one boundary-adjacent run.
A single chunk stands alone (in particular an atomic chunk over the budget is
emitted as-is); a run fitting the budget merges into one chunk; otherwise the
run is divided at the midpoint pivot and both halves are split recursively. -/
def splitRun (budget : Nat) : List Chunk → List Chunk
  | [] => []
  | [c] => [c]
  | c :: d :: rest =>
      if runTotal (c :: d :: rest) ≤ budget then [mergeRun (c :: d :: rest)]
      else
        splitRun budget ((c :: d :: rest).take (splitPoint (c :: d :: rest))) ++
        splitRun budget ((c :: d :: rest).drop (splitPoint (c :: d :: rest)))
termination_by run => run.length
decreasing_by
  all_goals simp [splitPoint] <;> omega

/-- Decompose a collection into its maximal boundary-adjacent runs. -/
def toRuns : List Chunk → List (List Chunk)
  | [] => []
  | [c] => [[c]]
  | c :: d :: rest =>
      match toRuns (d :: rest) with
      | (e :: es) :: rs =>
          if c.«end» = e.start then (c :: e :: es) :: rs else [c] :: (e :: es) :: rs
      | other => [c] :: other

/-- Modelled from the spec §4.3: `ChunkCollection.split(maxChars)` splits each
maximal boundary-adjacent run independently and concatenates the results. -/
def splitChunks (budget : Nat) (cs : List Chunk) : List Chunk :=
  ((toRuns cs).map (splitRun budget)).flatten

/-! ## ChunkCollection lookup and extraction, modelled from the spec §4.4 -/

/-- Modelled from the spec §3: `chunk_hash` is `H` of the concatenation of the
chunk's line values in index order — the content identity. -/
def chunkHash (c : Chunk) : String :=
  hashFn (some (String.join (c.lines.map (fun l => l.value))))

/-- Indices of the chunks whose `start` equals the given boundary. -/
def startIdxs (cs : List Chunk) (h : String) : List Nat :=
  (List.range cs.length).filter (fun i => (cs.getD i default).start == h)

/-- Indices of the chunks whose `end` equals the given boundary. -/
def endIdxs (cs : List Chunk) (h : String) : List Nat :=
  (List.range cs.length).filter (fun i => (cs.getD i default).«end» == h)

/-- Boundary consistency of a run: every adjacent pair chains `end == start`. -/
def isChainB : List Chunk → Bool
  | [] => true
  | [_] => true
  | a :: b :: rest => (a.«end» == b.start) && isChainB (b :: rest)

/-- Modelled from the spec §4.4: `find(ref)` locates the contiguous run
`[i..j]` with `chunks[i].start == ref.start` and `chunks[j].end == ref.end`;
an ambiguous candidate on either side yields `none`.  When the run is
boundary-consistent and the merged content hash equals `ref.hash`, the merged
chunk carrying `ref.timestamp` is returned together with the run's indices. -/
def findRun (cs : List Chunk) (r : ChunkRef) : Option (Nat × Nat × Chunk) :=
  match startIdxs cs r.start, endIdxs cs r.«end» with
  | [i], [j] =>
      if i ≤ j then
        let run := (cs.drop i).take (j + 1 - i)
        let merged : Chunk :=
          ⟨(run.headD default).start, (run.getLastD default).«end»,
           (run.map Chunk.lines).flatten, some r.timestamp⟩
        if isChainB run && (chunkHash merged == r.hash) then some (i, j, merged)
        else none
      else none
  | _, _ => none

/-- Modelled from the spec §4.4: `find(ref)` as exposed, dropping the run
indices. -/
def findChunk (cs : List Chunk) (r : ChunkRef) : Option Chunk :=
  (findRun cs r).map (fun x => x.2.2)

/-- One `extract` step: try one ref against the current remainder, moving the
merged chunk into `matched` and removing its run from the remainder. -/
def extractStep (acc : List Chunk × List Chunk) (r : ChunkRef) :
    List Chunk × List Chunk :=
  match findRun acc.2 r with
  | some (i, j, c) => (acc.1 ++ [c], acc.2.take i ++ acc.2.drop (j + 1))
  | none => acc

/-- Modelled from the spec §4.4: `extract(refs)` applies `find` for each ref in
order over the current remainder; unmatched refs are dropped. -/
def extractChunks (cs : List Chunk) (refs : List ChunkRef) :
    List Chunk × List Chunk :=
  refs.foldl extractStep ([], cs)

/-! ## Diff and reconstruction, modelled from the spec §4.5 -/

/-- Modelled from the spec §4.5: `Diff.create(chunks, timestamp)` emits one ref
per chunk, stamping each with the timestamp. -/
def diffCreate (cs : List Chunk) (ts : String) : List ChunkRef :=
  cs.map (fun c => ⟨c.start, c.«end», chunkHash c, ts⟩)

/-- Lexicographic comparison of character lists by code point. -/
def lexLe : List Char → List Char → Bool
  | [], _ => true
  | _ :: _, [] => false
  | a :: as, b :: bs =>
      if a.toNat < b.toNat then true
      else if b.toNat < a.toNat then false
      else lexLe as bs

/-- Lexicographic string comparison; on the fixed-width decimal timestamps of
the spec this is the numeric order. -/
def tsLe (s t : String) : Bool := lexLe s.data t.data

/-- Insert a timestamp into a descending-sorted list. -/
def insertDesc (x : String) : List String → List String
  | [] => [x]
  | t :: rest => if tsLe t x then x :: t :: rest else t :: insertDesc x rest

/-- Sort timestamps in descending order. -/
def sortDesc : List String → List String
  | [] => []
  | t :: rest => insertDesc t (sortDesc rest)

/-- Modelled from the spec §4.5 step 1: the distinct timestamps of a diff in
descending order (latest first). -/
def tsDesc (refs : List ChunkRef) : List String :=
  sortDesc ((refs.map (fun r => r.timestamp)).dedup)

/-- The timestamp groups of a diff, iterated latest first. -/
def tsGroups (refs : List ChunkRef) : List (List ChunkRef) :=
  (tsDesc refs).map (fun ts => refs.filter (fun r => r.timestamp == ts))

/-- Modelled from the spec §4.5 step 3: a ref conflicts when some already seen
ref shares its `start` or shares its `end`. -/
def conflictsB (seen : List ChunkRef) (r : ChunkRef) : Bool :=
  seen.any (fun s => s.start == r.start || s.«end» == r.«end»)

/-- Process one ref against the `(accepted, rejected)` state. -/
def stepRef (acc : List ChunkRef × List ChunkRef) (r : ChunkRef) :
    List ChunkRef × List ChunkRef :=
  if conflictsB (acc.1 ++ acc.2) r then (acc.1, acc.2 ++ [r])
  else (acc.1 ++ [r], acc.2)

/-- Process one timestamp group in order. -/
def processGroup (acc : List ChunkRef × List ChunkRef) (g : List ChunkRef) :
    List ChunkRef × List ChunkRef :=
  g.foldl stepRef acc

/-- Modelled from the spec §4.5 steps 1-3: fold the timestamp groups, latest
first, accepting or rejecting each ref. -/
def acceptPass (refs : List ChunkRef) : List ChunkRef × List ChunkRef :=
  (tsGroups refs).foldl processGroup ([], [])

/-- The accepted refs of a diff, keyed by `start` (starts are distinct). -/
def acceptedRefs (refs : List ChunkRef) : List ChunkRef := (acceptPass refs).1

/-- The accepted ref at a boundary, when present. -/
def lookupStart (accepted : List ChunkRef) (b : String) : Option ChunkRef :=
  accepted.find? (fun r => r.start == b)

/-- Modelled from the spec §4.5 step 4: walk from a boundary, repeatedly
appending the accepted ref at the current boundary until `LAST` is reached.
`fuel` bounds the number of steps; a walk that cannot be completed (or would
cycle forever) yields `none`, the `BrokenChain` failure. -/
def buildChain (accepted : List ChunkRef) : Nat → String → Option (List ChunkRef)
  | 0, b => if b = LAST then some [] else none
  | fuel + 1, b =>
      if b = LAST then some []
      else
        (lookupStart accepted b).bind
          (fun r => (buildChain accepted fuel r.«end»).map (fun c => r :: c))

/-- Modelled from the spec §4.5: `Diff.reconstruct()` — accept refs latest
first, then walk the chain from `FIRST`; `none` is the `BrokenChain` error. -/
def reconstruct (refs : List ChunkRef) : Option (List ChunkRef) :=
  buildChain (acceptedRefs refs) (acceptedRefs refs).length FIRST

/-! ## The import surface of `learning_python.main`, from the source

Transcribed from `src/learning_python/main.py`: every name bound at the top
level of the module (imported names, classes, and `click` commands), in the
order the module binds them. -/

/-- The top-level names bound by the module `learning_python.main`
(`src/learning_python/main.py`). -/
def mainModuleNames : List String :=
  [ "os", "time", "json", "click", "random", "string", "itertools",
    "TextIOWrapper", "PriorityQueue",
    "Any", "Set", "Dict", "List", "Tuple", "Callable", "Iterator", "Iterable",
    "Optional", "Protocol",
    "DataStatistics",
    "get_datatype", "DataType", "StringType", "IntegerType",
    "create_if_absent", "list_directory", "read_lines", "read_binary",
    "write_lines", "write_binary", "split_path", "combine_path", "as_iterable",
    "DataSource", "DataOutput", "FileDataSource", "DataChunk", "ColumnarChunk",
    "RowBasedChunk", "TempWriter", "MultiFileTempWriter", "SingleFileTempWriter",
    "FileSystemTempDir", "QueryPipeline", "FileSystemDataDir",
    "FileSystemMetaDir", "TimestampProvider", "DataBatch", "DataTable",
    "ingest", "count", "rows", "distinct", "order_by" ]

/-- The names `src/tests/main_test.py` lines 4-9 import from
`learning_python.main`. -/
def testMainImports : List String :=
  ["_hash", "_last", "_first", "CodeDiff", "CodeFile"]

/-- A Python `from M import n` succeeds only if `n` is an attribute of the
executed module `M`; it raises `ImportError` otherwise. -/
def fromImportFails (moduleNames : List String) (names : List String) : Bool :=
  names.any (fun n => !(moduleNames.contains n))

/-! ## Basic facts about line sets -/

theorem mkLines_length (i : Nat) (vs : List String) :
    (mkLines i vs).length = vs.length := by
  induction vs generalizing i with
  | nil => rfl
  | cons v vs ih => simp [mkLines, ih]

theorem lineSet_length (values : List String) :
    (lineSet values).length = values.length := mkLines_length 0 values

theorem mkLines_map_value (i : Nat) (vs : List String) :
    (mkLines i vs).map Line.value = vs := by
  induction vs generalizing i with
  | nil => rfl
  | cons v vs ih => simp [mkLines, ih]

theorem mkLines_index_ge (i : Nat) (vs : List String) :
    ∀ l ∈ mkLines i vs, i ≤ l.index := by
  induction vs generalizing i with
  | nil => simp [mkLines]
  | cons v vs ih =>
      intro l hl
      simp only [mkLines, List.mem_cons] at hl
      rcases hl with rfl | hl
      · exact Nat.le_refl i
      · exact Nat.le_trans (Nat.le_succ i) (ih (i + 1) l hl)

theorem mkLines_pairwise (i : Nat) (vs : List String) :
    List.Pairwise (fun a b => a.index < b.index) (mkLines i vs) := by
  induction vs generalizing i with
  | nil => simp [mkLines]
  | cons v vs ih =>
      simp only [mkLines, List.pairwise_cons]
      exact ⟨fun l hl => Nat.lt_of_lt_of_le (Nat.lt_succ_self i)
               (mkLines_index_ge (i + 1) vs l hl), ih (i + 1)⟩

theorem uniqueLines_sublist (ls : List Line) : (uniqueLines ls).Sublist ls :=
  List.filter_sublist ls

theorem uniqueLines_pairwise (values : List String) :
    List.Pairwise (fun a b => a.index < b.index)
      (uniqueLines (lineSet values)) :=
  List.Pairwise.sublist (uniqueLines_sublist _) (mkLines_pairwise 0 values)

/-! ## Facts about the chunker -/

theorem getLastD_of_ne_nil {α : Type} (l : List α) (h : l ≠ []) (d₁ d₂ : α) :
    l.getLastD d₁ = l.getLastD d₂ := by
  cases l with
  | nil => exact absurd rfl h
  | cons a l => simp [List.getLastD_eq_getLast?, List.getLast?]

theorem chunkAux_head_start (ls : List Line) (prev : String) (s : Nat)
    (U : List Line) (c : Chunk) (h : (chunkAux ls prev s U).head? = some c) :
    c.start = prev := by
  cases U with
  | nil =>
      simp only [chunkAux] at h
      split at h
      · simp only [List.head?] at h
        cases h; rfl
      · simp at h
  | cons u us =>
      simp only [chunkAux, List.head?] at h
      cases h; rfl

theorem chunkAux_ne_nil (ls : List Line) (prev : String) (s : Nat)
    (U : List Line) (h : s < ls.length ∨ U ≠ []) :
    chunkAux ls prev s U ≠ [] := by
  cases U with
  | nil =>
      rcases h with h | h
      · simp [chunkAux, h]
      · exact absurd rfl h
  | cons u us => simp [chunkAux]

theorem chunkAux_chain (ls : List Line) (prev : String) (s : Nat)
    (U : List Line) : List.Chain' adjacent (chunkAux ls prev s U) := by
  induction U generalizing prev s with
  | nil =>
      simp only [chunkAux]
      split <;> simp
  | cons u us ih =>
      simp only [chunkAux]
      refine List.chain'_cons'.mpr ⟨?_, ih _ _⟩
      intro y hy
      exact (chunkAux_head_start ls _ _ us y hy).symm

theorem chunkAux_last_end (ls : List Line) (prev : String) (s : Nat)
    (U : List Line) (h : chunkAux ls prev s U ≠ []) :
    ((chunkAux ls prev s U).getLastD default).«end» = LAST := by
  induction U generalizing prev s with
  | nil =>
      simp only [chunkAux] at h ⊢
      split
      · rfl
      · simp_all
  | cons u us ih =>
      simp only [chunkAux]
      cases us with
      | nil =>
          by_cases hs : u.index + 1 < ls.length
          · have hne := chunkAux_ne_nil ls (chunkEnd ls u []) (u.index + 1) [] (Or.inl hs)
            rw [List.getLastD_cons,
                getLastD_of_ne_nil _ hne _ default]
            exact ih _ _ hne
          · have : chunkAux ls (chunkEnd ls u []) (u.index + 1) [] = [] := by
              simp [chunkAux, hs]
            rw [this]
            simp [List.getLastD, chunkEnd, Nat.le_of_not_lt hs]
      | cons u' us' =>
          have hne := chunkAux_ne_nil ls (chunkEnd ls u (u' :: us'))
            (u.index + 1) (u' :: us') (Or.inr (by simp))
          rw [List.getLastD_cons, getLastD_of_ne_nil _ hne _ default]
          exact ih _ _ hne

theorem chunkAux_flatten (ls : List Line) (prev : String) (s : Nat)
    (U : List Line) (hh : ∀ u ∈ U.head?, s ≤ u.index + 1)
    (hc : List.Chain' (fun a b => a.index ≤ b.index) U) :
    ((chunkAux ls prev s U).map Chunk.lines).flatten = ls.drop s := by
  induction U generalizing prev s with
  | nil =>
      simp only [chunkAux]
      split
      · simp
      · simp only [List.map_nil, List.flatten_nil]
        exact (List.drop_eq_nil_iff.mpr (Nat.le_of_not_lt (by assumption))).symm
  | cons u us ih =>
      simp only [chunkAux, List.map_cons, List.flatten_cons]
      have hs : s ≤ u.index + 1 := hh u (by simp)
      have hrec : ((chunkAux ls (chunkEnd ls u us) (u.index + 1) us).map
          Chunk.lines).flatten = ls.drop (u.index + 1) := by
        refine ih _ _ ?_ (List.Chain'.tail hc)
        intro u' hu'
        have := (List.chain'_cons'.mp hc).1 u' hu'
        omega
      rw [hrec, lineSlice]
      have hdd : ls.drop (u.index + 1) = (ls.drop s).drop (u.index + 1 - s) := by
        rw [List.drop_drop]
        congr 1
        omega
      rw [hdd]
      exact List.take_append_drop _ _

/-! ## Claim theorems C1, C2, C3, C10 -/

/-- C1: for every snapshot with at least one line, `chunk(S)` forms a boundary
chain: the first chunk starts at `FIRST`, the last chunk ends at `LAST`, and
every adjacent pair chains `end == start`. -/
theorem spec_c1 (values : List String) (h : values ≠ []) :
    codeFileChunk values ≠ [] ∧
    ((codeFileChunk values).headD default).start = FIRST ∧
    ((codeFileChunk values).getLastD default).«end» = LAST ∧
    List.Chain' adjacent (codeFileChunk values) := by
  have hlen : 0 < (lineSet values).length := by
    rw [lineSet_length]
    exact List.length_pos.mpr h
  have hne : codeFileChunk values ≠ [] :=
    chunkAux_ne_nil _ FIRST 0 _ (Or.inl hlen)
  refine ⟨hne, ?_, chunkAux_last_end _ _ _ _ hne, chunkAux_chain _ _ _ _⟩
  obtain ⟨c, cs, hcons⟩ := List.exists_cons_of_ne_nil hne
  have : (codeFileChunk values).head? = some c := by rw [hcons]; rfl
  rw [hcons, List.headD_cons]
  exact chunkAux_head_start _ _ _ _ c this

/-- C1 witness at the snapshot `["abc\n", "cde\n"]`. -/
theorem spec_c1_witness :
    codeFileChunk ["abc\n", "cde\n"] ≠ [] ∧
    ((codeFileChunk ["abc\n", "cde\n"]).headD default).start = FIRST ∧
    ((codeFileChunk ["abc\n", "cde\n"]).getLastD default).«end» = LAST ∧
    List.Chain' adjacent (codeFileChunk ["abc\n", "cde\n"]) :=
  spec_c1 ["abc\n", "cde\n"] (by decide)

/-- C2: the module `learning_python.main` defines none of the symbols
`_hash`, `_last`, `_first`, `CodeDiff`, `CodeFile` that the test file imports,
so the `from learning_python.main import ...` lines at the top of
`src/tests/main_test.py` raise `ImportError` on every run. -/
theorem spec_c2 :
    testMainImports.all (fun n => !(mainModuleNames.contains n)) = true ∧
    fromImportFails mainModuleNames testMainImports = true := by decide

/-- C3: concatenating the lines of `chunk(S)`'s chunks in order yields exactly
the lines of `S`, in order, with indices and values preserved. -/
theorem spec_c3 (values : List String) :
    ((codeFileChunk values).map Chunk.lines).flatten = lineSet values ∧
    (((codeFileChunk values).map Chunk.lines).flatten).map Line.value = values := by
  have h : ((codeFileChunk values).map Chunk.lines).flatten = lineSet values := by
    have := chunkAux_flatten (lineSet values) FIRST 0
      (uniqueLines (lineSet values)) (fun u _ => Nat.zero_le _)
      (List.Pairwise.chain'
        ((uniqueLines_pairwise values).imp (fun h => Nat.le_of_lt h)))
    simpa [codeFileChunk] using this
  exact ⟨h, by rw [h]; exact mkLines_map_value 0 values⟩

/-- C10: a non-empty snapshot in which every line's hash appears more than
once yields exactly one chunk spanning `FIRST…LAST` and containing all its
lines. -/
theorem spec_c10 (values : List String) (h : values ≠ [])
    (hdup : ∀ l ∈ lineSet values,
      1 < (lineSet values).countP (fun x => x.hash == l.hash)) :
    codeFileChunk values = [⟨FIRST, LAST, lineSet values, none⟩] := by
  have hu : uniqueLines (lineSet values) = [] := by
    rw [uniqueLines, List.filter_eq_nil_iff]
    intro l hl
    have := hdup l hl
    simp only [isUniqueIn, beq_iff_eq]
    omega
  have hlen : 0 < (lineSet values).length := by
    rw [lineSet_length]
    exact List.length_pos.mpr h
  rw [codeFileChunk, hu]
  simp [chunkAux, hlen]

/-- C10 witness at the all-duplicate snapshot `["a\n", "a\n"]`. -/
theorem spec_c10_witness :
    codeFileChunk ["a\n", "a\n"] = [⟨FIRST, LAST, lineSet ["a\n", "a\n"], none⟩] :=
  spec_c10 ["a\n", "a\n"] (by decide) (by decide)

/-! ## Claim C9: the content identity -/

/-- C9: every ref's content identity is `H` of the concatenation of its
chunk's line values in index order; `H(null)` equals `H` of the empty string,
the first `H` hex characters of the SHA-1 digest of `""`. -/
theorem spec_c9 :
    (∀ (cs : List Chunk) (t : String) (r : ChunkRef), r ∈ diffCreate cs t →
      ∃ c ∈ cs,
        r.hash = hashFn (some (String.join (c.lines.map (fun l => l.value))))) ∧
    hashFn none = hashFn (some "") ∧
    hashFn none = "da39a3ee5e6b4b0d3255bfef95601890afd80709" := by
  refine ⟨?_, rfl, by decide⟩
  intro cs t r hr
  obtain ⟨c, hc, rfl⟩ := List.mem_map.mp hr
  exact ⟨c, hc, rfl⟩

/-- C9 witness at a concrete two-line chunk. -/
theorem spec_c9_witness :
    ∃ c ∈ [(⟨FIRST, LAST, [⟨0, "x", "h1"⟩, ⟨1, "y", "h2"⟩], none⟩ : Chunk)],
      (⟨FIRST, LAST,
        chunkHash ⟨FIRST, LAST, [⟨0, "x", "h1"⟩, ⟨1, "y", "h2"⟩], none⟩,
        "1700000000"⟩ : ChunkRef).hash =
        hashFn (some (String.join (c.lines.map (fun l => l.value)))) :=
  spec_c9.1 [⟨FIRST, LAST, [⟨0, "x", "h1"⟩, ⟨1, "y", "h2"⟩], none⟩]
    "1700000000" _ (by simp [diffCreate])

/-! ## Facts about the split -/

theorem charCount_mergeRun (run : List Chunk) :
    charCount (mergeRun run) = runTotal run := by
  simp only [charCount, mergeRun, runTotal, List.map_flatten, List.sum_flatten,
    List.map_map]
  rfl

theorem mergeRun_single (c : Chunk) (h : c.timestamp = none) :
    mergeRun [c] = c := by
  cases c with
  | mk s e l t => simp_all [mergeRun]

theorem splitPoint_pos (c d : Chunk) (rest : List Chunk) :
    1 ≤ splitPoint (c :: d :: rest) := by
  simp only [splitPoint, List.length_cons]
  omega

theorem splitPoint_le (c d : Chunk) (rest : List Chunk) :
    splitPoint (c :: d :: rest) ≤ rest.length + 1 := by
  simp only [splitPoint, List.length_cons]
  omega

theorem take_splitPoint_ne_nil (c d : Chunk) (rest : List Chunk) :
    (c :: d :: rest).take (splitPoint (c :: d :: rest)) ≠ [] := by
  have h := splitPoint_pos c d rest
  cases hp : splitPoint (c :: d :: rest) with
  | zero => omega
  | succ n => simp

theorem drop_splitPoint_ne_nil (c d : Chunk) (rest : List Chunk) :
    (c :: d :: rest).drop (splitPoint (c :: d :: rest)) ≠ [] := by
  have h := splitPoint_le c d rest
  intro hcon
  have := List.drop_eq_nil_iff.mp hcon
  simp at this
  omega

theorem splitRun_ne_nil (budget : Nat) (run : List Chunk) (h : run ≠ []) :
    splitRun budget run ≠ [] := by
  induction run using splitRun.induct budget with
  | case1 => exact absurd rfl h
  | case2 c => rw [splitRun]; simp
  | case3 c d rest hle => rw [splitRun, if_pos hle]; simp
  | case4 c d rest hgt ih1 ih2 =>
      rw [splitRun, if_neg hgt]
      have h1 := ih1 (take_splitPoint_ne_nil c d rest)
      intro hcon
      exact h1 (List.append_eq_nil.mp hcon).1

theorem splitRun_mem (budget : Nat) (run : List Chunk) :
    ∀ d ∈ splitRun budget run, charCount d ≤ budget ∨ d ∈ run := by
  induction run using splitRun.induct budget with
  | case1 => simp [splitRun]
  | case2 c =>
      intro x hx
      rw [splitRun] at hx
      simp at hx
      subst hx
      right; simp
  | case3 c d rest hle =>
      intro x hx
      rw [splitRun, if_pos hle] at hx
      simp at hx
      subst hx
      left
      rw [charCount_mergeRun]
      exact hle
  | case4 c d rest hgt ih1 ih2 =>
      intro x hx
      rw [splitRun, if_neg hgt] at hx
      rcases List.mem_append.mp hx with h | h
      · rcases ih1 x h with h' | h'
        · exact Or.inl h'
        · exact Or.inr (List.take_subset _ _ h')
      · rcases ih2 x h with h' | h'
        · exact Or.inl h'
        · exact Or.inr (List.drop_subset _ _ h')

theorem splitRun_shape (budget : Nat) (run : List Chunk)
    (hts : ∀ c ∈ run, c.timestamp = none) :
    ∀ d ∈ splitRun budget run,
      ∃ sub, sub ≠ [] ∧ sub <:+: run ∧ d = mergeRun sub := by
  induction run using splitRun.induct budget with
  | case1 => simp [splitRun]
  | case2 c =>
      intro x hx
      rw [splitRun] at hx
      simp at hx
      subst hx
      exact ⟨[x], by simp, List.infix_refl _,
        (mergeRun_single x (hts x (by simp))).symm⟩
  | case3 c d rest hle =>
      intro x hx
      rw [splitRun, if_pos hle] at hx
      simp at hx
      subst hx
      exact ⟨c :: d :: rest, by simp, List.infix_refl _, rfl⟩
  | case4 c d rest hgt ih1 ih2 =>
      intro x hx
      rw [splitRun, if_neg hgt] at hx
      rcases List.mem_append.mp hx with h | h
      · obtain ⟨sub, hne, hinf, heq⟩ :=
          ih1 (fun y hy => hts y (List.take_subset _ _ hy)) x h
        exact ⟨sub, hne,
          hinf.trans (List.take_prefix _ _).isInfix, heq⟩
      · obtain ⟨sub, hne, hinf, heq⟩ :=
          ih2 (fun y hy => hts y (List.drop_subset _ _ hy)) x h
        exact ⟨sub, hne,
          hinf.trans (List.drop_suffix _ _).isInfix, heq⟩

theorem chunkAux_timestamp (ls : List Line) (prev : String) (s : Nat)
    (U : List Line) : ∀ c ∈ chunkAux ls prev s U, c.timestamp = none := by
  induction U generalizing prev s with
  | nil =>
      simp only [chunkAux]
      split <;> simp
  | cons u us ih =>
      intro c hc
      simp only [chunkAux, List.mem_cons] at hc
      rcases hc with rfl | hc
      · rfl
      · exact ih _ _ c hc

/-! ## Facts about maximal runs -/

theorem toRuns_shape (d : Chunk) (rest : List Chunk) :
    ∃ ds rs, toRuns (d :: rest) = (d :: ds) :: rs := by
  induction rest generalizing d with
  | nil => exact ⟨[], [], rfl⟩
  | cons e rest ih =>
      obtain ⟨ds, rs, h⟩ := ih e
      by_cases hadj : d.«end» = e.start
      · exact ⟨e :: ds, rs, by simp only [toRuns, h, if_pos hadj]⟩
      · exact ⟨[], (e :: ds) :: rs, by simp only [toRuns, h, if_neg hadj]⟩

theorem toRuns_flatten (cs : List Chunk) : (toRuns cs).flatten = cs := by
  induction cs using toRuns.induct with
  | case1 => rfl
  | case2 c => rfl
  | case3 c d rest e es rs heq hadj ih =>
      simp only [toRuns, heq, if_pos hadj, List.flatten_cons, List.cons_append]
      rw [heq, List.flatten_cons] at ih
      simp only [List.cons_append] at ih
      exact congrArg (c :: ·) ih
  | case4 c d rest e es rs heq hadj ih =>
      simp only [toRuns, heq, if_neg hadj, List.flatten_cons, List.cons_append,
        List.nil_append]
      rw [heq, List.flatten_cons] at ih
      simp only [List.cons_append] at ih
      exact congrArg (c :: ·) ih
  | case5 c d rest hnone ih =>
      obtain ⟨ds, rs, h⟩ := toRuns_shape d rest
      exact absurd h (by intro h; exact hnone _ _ _ h)

theorem toRuns_chain (cs : List Chunk) :
    ∀ R ∈ toRuns cs, List.Chain' adjacent R := by
  induction cs using toRuns.induct with
  | case1 => simp [toRuns]
  | case2 c => simp [toRuns]
  | case3 c d rest e es rs heq hadj ih =>
      simp only [toRuns, heq, if_pos hadj]
      intro R hR
      rcases List.mem_cons.mp hR with rfl | hR
      · refine List.chain'_cons.mpr ⟨hadj, ?_⟩
        exact ih _ (by rw [heq]; simp)
      · exact ih _ (by rw [heq]; simp [hR])
  | case4 c d rest e es rs heq hadj ih =>
      simp only [toRuns, heq, if_neg hadj]
      intro R hR
      rcases List.mem_cons.mp hR with rfl | hR
      · simp
      · exact ih _ (by rw [heq]; exact hR)
  | case5 c d rest hnone ih =>
      obtain ⟨ds, rs, h⟩ := toRuns_shape d rest
      exact absurd h (by intro h; exact hnone _ _ _ h)

/-! ## Claim C6 -/

/-- C6: with a budget at least the size of every atomic chunk, every chunk of
`chunk(S).split(B)` either fits the budget or is a single source chunk emitted
unchanged; moreover every output chunk is the merge of a non-empty contiguous
run of source chunks, taking its `start` from the leftmost input and its `end`
from the rightmost input. -/
theorem spec_c6 (values : List String) (budget : Nat) (d : Chunk)
    (hB : ∀ c ∈ codeFileChunk values, charCount c ≤ budget)
    (hd : d ∈ splitChunks budget (codeFileChunk values)) :
    (charCount d ≤ budget ∨ d ∈ codeFileChunk values) ∧
      ∃ run, run ≠ [] ∧ run <:+: codeFileChunk values ∧ d = mergeRun run ∧
        d.start = (run.headD default).start ∧
        d.«end» = (run.getLastD default).«end» := by
  obtain ⟨out, hout, hdout⟩ := List.mem_flatten.mp hd
  obtain ⟨R, hR, rfl⟩ := List.mem_map.mp hout
  have hRcs : ∀ x ∈ R, x ∈ codeFileChunk values := by
    intro x hx
    rw [← toRuns_flatten (codeFileChunk values)]
    exact List.mem_flatten.mpr ⟨R, hR, hx⟩
  constructor
  · rcases splitRun_mem budget R d hdout with h | h
    · exact Or.inl h
    · exact Or.inr (hRcs d h)
  · have hts : ∀ x ∈ R, x.timestamp = none := fun x hx =>
      chunkAux_timestamp _ _ _ _ x (hRcs x hx)
    obtain ⟨sub, hne, hinf, heq⟩ := splitRun_shape budget R hts d hdout
    have hinfcs : sub <:+: codeFileChunk values := by
      rw [← toRuns_flatten (codeFileChunk values)]
      exact hinf.trans (List.infix_of_mem_flatten hR)
    exact ⟨sub, hne, hinfcs, heq, by rw [heq]; rfl, by rw [heq]; rfl⟩

theorem splitChunks_singleton (budget : Nat) (c : Chunk) :
    splitChunks budget [c] = [c] := by
  rw [splitChunks, show toRuns [c] = [[c]] from rfl, List.map_cons,
    List.map_nil, splitRun]
  rfl

/-- C6 witness at the snapshot `["a\n", "a\n"]` with budget 10, whose split
is the single chunk spanning the whole snapshot. -/
theorem spec_c6_witness :
    (charCount (⟨FIRST, LAST, lineSet ["a\n", "a\n"], none⟩ : Chunk) ≤ 10 ∨
      (⟨FIRST, LAST, lineSet ["a\n", "a\n"], none⟩ : Chunk) ∈
        codeFileChunk ["a\n", "a\n"]) ∧
    ∃ run, run ≠ [] ∧ run <:+: codeFileChunk ["a\n", "a\n"] ∧
      (⟨FIRST, LAST, lineSet ["a\n", "a\n"], none⟩ : Chunk) = mergeRun run ∧
      (⟨FIRST, LAST, lineSet ["a\n", "a\n"], none⟩ : Chunk).start =
        (run.headD default).start ∧
      (⟨FIRST, LAST, lineSet ["a\n", "a\n"], none⟩ : Chunk).«end» =
        (run.getLastD default).«end» :=
  spec_c6 ["a\n", "a\n"] 10 ⟨FIRST, LAST, lineSet ["a\n", "a\n"], none⟩
    (by decide)
    (by
      rw [show codeFileChunk ["a\n", "a\n"] =
          [⟨FIRST, LAST, lineSet ["a\n", "a\n"], none⟩] by decide,
        splitChunks_singleton]
      simp)

/-! ## Facts about find and extract -/

theorem filter_range_single (n k : Nat) (p : Nat → Bool) (hk : k < n)
    (hp : p k = true) (huniq : ∀ i, i < n → p i = true → i = k) :
    (List.range n).filter p = [k] := by
  induction n with
  | zero => omega
  | succ n ih =>
      rw [List.range_succ, List.filter_append]
      by_cases hkn : k = n
      · subst hkn
        have h1 : (List.range k).filter p = [] := by
          rw [List.filter_eq_nil_iff]
          intro i hi hpi
          have hik : i < k := List.mem_range.mp hi
          have := huniq i (Nat.lt_succ_of_lt hik) hpi
          omega
        rw [h1]
        simp [List.filter, hp]
      · have hk' : k < n := by omega
        have hpn : p n = false := by
          by_contra hcon
          have : p n = true := by
            cases hpn2 : p n
            · exact absurd hpn2 hcon
            · rfl
          have := huniq n (Nat.lt_succ_self n) this
          omega
        rw [ih hk' (fun i hi hpi => huniq i (Nat.lt_succ_of_lt hi) hpi)]
        simp [List.filter, hpn]

theorem head_idx_unique_start (c : Chunk) (rest : List Chunk)
    (hnd : ((c :: rest).map Chunk.start).Nodup) (i : Nat)
    (hi : i < (c :: rest).length) (heq : ((c :: rest).getD i default).start = c.start) :
    i = 0 := by
  cases i with
  | zero => rfl
  | succ i =>
      exfalso
      rw [List.getD_eq_getElem _ _ hi, List.getElem_cons_succ] at heq
      rw [List.map_cons, List.nodup_cons] at hnd
      refine hnd.1 ?_
      rw [← heq]
      exact List.mem_map_of_mem _ (List.getElem_mem _)

theorem head_idx_unique_end (c : Chunk) (rest : List Chunk)
    (hnd : ((c :: rest).map Chunk.«end»).Nodup) (i : Nat)
    (hi : i < (c :: rest).length)
    (heq : ((c :: rest).getD i default).«end» = c.«end») : i = 0 := by
  cases i with
  | zero => rfl
  | succ i =>
      exfalso
      rw [List.getD_eq_getElem _ _ hi, List.getElem_cons_succ] at heq
      rw [List.map_cons, List.nodup_cons] at hnd
      refine hnd.1 ?_
      rw [← heq]
      exact List.mem_map_of_mem _ (List.getElem_mem _)

theorem startIdxs_head (c : Chunk) (rest : List Chunk)
    (hnd : ((c :: rest).map Chunk.start).Nodup) :
    startIdxs (c :: rest) c.start = [0] := by
  refine filter_range_single _ 0 _ (by simp) (by simp) ?_
  intro i hi hpi
  exact head_idx_unique_start c rest hnd i hi (by simpa using hpi)

theorem endIdxs_head (c : Chunk) (rest : List Chunk)
    (hnd : ((c :: rest).map Chunk.«end»).Nodup) :
    endIdxs (c :: rest) c.«end» = [0] := by
  refine filter_range_single _ 0 _ (by simp) (by simp) ?_
  intro i hi hpi
  exact head_idx_unique_end c rest hnd i hi (by simpa using hpi)

theorem findRun_head (c : Chunk) (rest : List Chunk) (t : String)
    (hs : ((c :: rest).map Chunk.start).Nodup)
    (he : ((c :: rest).map Chunk.«end»).Nodup) :
    findRun (c :: rest) ⟨c.start, c.«end», chunkHash c, t⟩ =
      some (0, 0, ⟨c.start, c.«end», c.lines, some t⟩) := by
  have h1 := startIdxs_head c rest hs
  have h2 := endIdxs_head c rest he
  simp only [findRun] at h1 h2 ⊢
  rw [h1, h2]
  simp [isChainB, chunkHash]

theorem extract_stamp (t : String) (cs : List Chunk) :
    ∀ (pre : List Chunk), (cs.map Chunk.start).Nodup →
    (cs.map Chunk.«end»).Nodup →
    (diffCreate cs t).foldl extractStep (pre, cs) =
      (pre ++ cs.map (fun c => ⟨c.start, c.«end», c.lines, some t⟩), []) := by
  induction cs with
  | nil => intro pre _ _; simp [diffCreate]
  | cons c rest ih =>
      intro pre hs he
      simp only [diffCreate, List.map_cons, List.foldl_cons]
      have hstep : extractStep (pre, c :: rest) ⟨c.start, c.«end», chunkHash c, t⟩
          = (pre ++ [⟨c.start, c.«end», c.lines, some t⟩], rest) := by
        simp only [extractStep, findRun_head c rest t hs he]
        simp
      rw [hstep]
      have hs' : (rest.map Chunk.start).Nodup :=
        (List.nodup_cons.mp (by simpa using hs)).2
      have he' : (rest.map Chunk.«end»).Nodup :=
        (List.nodup_cons.mp (by simpa using he)).2
      have := ih (pre ++ [⟨c.start, c.«end», c.lines, some t⟩]) hs' he'
      simp only [diffCreate] at this
      rw [this]
      simp

/-! ## Claim C8 -/

/-- C8: extracting the chunking of an identical snapshot against the diff of
`S` matches everything: `matched` is all the chunks (carrying the refs'
timestamp) and the unmatched remainder is empty.  The hypotheses state that
the chunk boundaries do not collide, the spec's standing invariant on
digests. -/
theorem spec_c8 (values : List String) (t : String)
    (hs : ((codeFileChunk values).map Chunk.start).Nodup)
    (he : ((codeFileChunk values).map Chunk.«end»).Nodup) :
    extractChunks (codeFileChunk values) (diffCreate (codeFileChunk values) t) =
      ((codeFileChunk values).map
        (fun c => ⟨c.start, c.«end», c.lines, some t⟩), []) := by
  have := extract_stamp t (codeFileChunk values) [] hs he
  simpa [extractChunks] using this

/-- C8 witness at the snapshot `["a\n", "b\n"]`. -/
theorem spec_c8_witness :
    extractChunks (codeFileChunk ["a\n", "b\n"])
        (diffCreate (codeFileChunk ["a\n", "b\n"]) "1700000000") =
      ((codeFileChunk ["a\n", "b\n"]).map
        (fun c => ⟨c.start, c.«end», c.lines, some "1700000000"⟩), []) :=
  spec_c8 ["a\n", "b\n"] "1700000000" (by decide) (by decide)

/-! ## Facts about the timestamp order and the descending sort -/

theorem lexLe_refl (as : List Char) : lexLe as as = true := by
  induction as with
  | nil => rfl
  | cons a as ih => simp [lexLe, ih]

theorem lexLe_total (as bs : List Char) :
    lexLe as bs = true ∨ lexLe bs as = true := by
  induction as generalizing bs with
  | nil => left; rfl
  | cons a as ih =>
      cases bs with
      | nil => right; rfl
      | cons b bs =>
          by_cases h1 : a.toNat < b.toNat
          · left; simp [lexLe, h1]
          · by_cases h2 : b.toNat < a.toNat
            · right; simp [lexLe, h2]
            · rcases ih bs with h | h
              · left; simp [lexLe, h1, h2, h]
              · right; simp [lexLe, h1, h2, h]

theorem lexLe_trans (as bs cs : List Char) (h1 : lexLe as bs = true)
    (h2 : lexLe bs cs = true) : lexLe as cs = true := by
  induction as generalizing bs cs with
  | nil => rfl
  | cons a as ih =>
      cases bs with
      | nil => simp [lexLe] at h1
      | cons b bs =>
          cases cs with
          | nil => simp [lexLe] at h2
          | cons c cs =>
              simp only [lexLe] at h1 h2 ⊢
              by_cases hab : a.toNat < b.toNat
              · by_cases hbc : b.toNat < c.toNat
                · simp [show a.toNat < c.toNat by omega]
                · simp only [if_neg hbc] at h2
                  by_cases hcb : c.toNat < b.toNat
                  · simp [hcb] at h2
                  · have : b.toNat = c.toNat := by omega
                    simp [show a.toNat < c.toNat by omega]
              · simp only [if_neg hab] at h1
                by_cases hba : b.toNat < a.toNat
                · simp [hba] at h1
                · have hab' : a.toNat = b.toNat := by omega
                  by_cases hbc : b.toNat < c.toNat
                  · simp [show a.toNat < c.toNat by omega]
                  · simp only [if_neg hbc] at h2
                    by_cases hcb : c.toNat < b.toNat
                    · simp [hcb] at h2
                    · rw [if_neg hba] at h1
                      rw [if_neg hcb] at h2
                      simp only [if_neg (by omega : ¬ a.toNat < c.toNat),
                        if_neg (by omega : ¬ c.toNat < a.toNat)]
                      exact ih bs cs h1 h2

theorem tsLe_refl (s : String) : tsLe s s = true := lexLe_refl s.data

theorem tsLe_total (s t : String) : tsLe s t = true ∨ tsLe t s = true :=
  lexLe_total s.data t.data

theorem tsLe_trans (s t u : String) (h1 : tsLe s t = true)
    (h2 : tsLe t u = true) : tsLe s u = true :=
  lexLe_trans s.data t.data u.data h1 h2

theorem mem_insertDesc (x y : String) (l : List String) :
    x ∈ insertDesc y l ↔ x = y ∨ x ∈ l := by
  induction l with
  | nil => simp [insertDesc]
  | cons t rest ih =>
      simp only [insertDesc]
      split
      · simp
      · simp only [List.mem_cons, ih]
        tauto

theorem insertDesc_pairwise (y : String) (l : List String)
    (h : List.Pairwise (fun a b => tsLe b a = true) l) :
    List.Pairwise (fun a b => tsLe b a = true) (insertDesc y l) := by
  induction l with
  | nil => simp [insertDesc]
  | cons t rest ih =>
      simp only [insertDesc]
      rw [List.pairwise_cons] at h
      split
      · rename_i hty
        refine List.pairwise_cons.mpr ⟨?_, List.pairwise_cons.mpr h⟩
        intro z hz
        rcases List.mem_cons.mp hz with rfl | hz
        · exact hty
        · exact tsLe_trans _ _ _ (h.1 z hz) hty
      · rename_i hty
        refine List.pairwise_cons.mpr ⟨?_, ih h.2⟩
        intro z hz
        rcases (mem_insertDesc z y rest).mp hz with rfl | hz
        · rcases tsLe_total t z with h' | h'
          · exact absurd h' hty
          · exact h'
        · exact h.1 z hz

theorem sortDesc_pairwise (l : List String) :
    List.Pairwise (fun a b => tsLe b a = true) (sortDesc l) := by
  induction l with
  | nil => simp [sortDesc]
  | cons t rest ih => exact insertDesc_pairwise t _ ih

theorem mem_sortDesc (x : String) (l : List String) :
    x ∈ sortDesc l ↔ x ∈ l := by
  induction l with
  | nil => simp [sortDesc]
  | cons t rest ih =>
      simp only [sortDesc, mem_insertDesc, ih, List.mem_cons]

theorem insertDesc_nodup (y : String) (l : List String) (hy : y ∉ l)
    (h : l.Nodup) : (insertDesc y l).Nodup := by
  induction l with
  | nil => simp [insertDesc]
  | cons t rest ih =>
      simp only [insertDesc]
      rw [List.nodup_cons] at h
      split
      · refine List.nodup_cons.mpr ⟨hy, List.nodup_cons.mpr h⟩
      · refine List.nodup_cons.mpr ⟨?_, ih (fun hc => hy (by simp [hc])) h.2⟩
        intro hc
        rcases (mem_insertDesc t y rest).mp hc with rfl | hc
        · exact hy (by simp)
        · exact h.1 hc

theorem sortDesc_nodup (l : List String) (h : l.Nodup) :
    (sortDesc l).Nodup := by
  induction l with
  | nil => simp [sortDesc]
  | cons t rest ih =>
      rw [List.nodup_cons] at h
      exact insertDesc_nodup t _ (fun hc => h.1 ((mem_sortDesc t rest).mp hc))
        (ih h.2)

theorem tsDesc_nodup (refs : List ChunkRef) : (tsDesc refs).Nodup :=
  sortDesc_nodup _ (List.nodup_dedup _)

theorem mem_tsDesc (refs : List ChunkRef) (r : ChunkRef) (h : r ∈ refs) :
    r.timestamp ∈ tsDesc refs := by
  rw [tsDesc, mem_sortDesc, List.mem_dedup]
  exact List.mem_map_of_mem _ h

theorem tsDesc_pairwise (refs : List ChunkRef) :
    List.Pairwise (fun a b => tsLe b a = true) (tsDesc refs) :=
  sortDesc_pairwise _

/-! ## Facts about the accept pass -/

/-- Two refs conflict when they share a start or share an end. -/
def refConflictFree (x y : ChunkRef) : Prop :=
  x.start ≠ y.start ∧ x.«end» ≠ y.«end»

theorem conflictsB_false (seen : List ChunkRef) (r : ChunkRef)
    (h : conflictsB seen r = false) :
    ∀ s ∈ seen, s.start ≠ r.start ∧ s.«end» ≠ r.«end» := by
  intro s hs
  rw [conflictsB] at h
  have := List.any_eq_false.mp h s hs
  simp only [Bool.or_eq_true, beq_iff_eq, not_or] at this
  exact this

theorem processGroup_acc_mono (g : List ChunkRef)
    (acc : List ChunkRef × List ChunkRef) (x : ChunkRef) (hx : x ∈ acc.1) :
    x ∈ (processGroup acc g).1 := by
  induction g generalizing acc with
  | nil => exact hx
  | cons r rest ih =>
      simp only [processGroup, List.foldl_cons]
      refine ih (stepRef acc r) ?_
      simp only [stepRef]
      split <;> simp [hx]

theorem processGroup_rej_mono (g : List ChunkRef)
    (acc : List ChunkRef × List ChunkRef) (x : ChunkRef) (hx : x ∈ acc.2) :
    x ∈ (processGroup acc g).2 := by
  induction g generalizing acc with
  | nil => exact hx
  | cons r rest ih =>
      simp only [processGroup, List.foldl_cons]
      refine ih (stepRef acc r) ?_
      simp only [stepRef]
      split <;> simp [hx]

theorem processGroup_cover (g : List ChunkRef)
    (acc : List ChunkRef × List ChunkRef) (x : ChunkRef) (hx : x ∈ g) :
    x ∈ (processGroup acc g).1 ∨ x ∈ (processGroup acc g).2 := by
  induction g generalizing acc with
  | nil => simp at hx
  | cons r rest ih =>
      simp only [processGroup, List.foldl_cons]
      rcases List.mem_cons.mp hx with rfl | hx
      · by_cases hc : conflictsB (acc.1 ++ acc.2) x = true
        · right
          refine processGroup_rej_mono rest _ x ?_
          simp [stepRef, hc]
        · left
          refine processGroup_acc_mono rest _ x ?_
          simp [stepRef, Bool.of_not_eq_true hc]
      · exact ih (stepRef acc r) hx

theorem processGroup_provenance (g : List ChunkRef)
    (acc : List ChunkRef × List ChunkRef) (x : ChunkRef)
    (hx : x ∈ (processGroup acc g).1) :
    x ∈ acc.1 ∨ (x ∈ g ∧ ∃ seen : List ChunkRef,
      (∀ y, y ∈ acc.1 ∨ y ∈ acc.2 → y ∈ seen) ∧ conflictsB seen x = false) := by
  induction g generalizing acc with
  | nil => exact Or.inl hx
  | cons r rest ih =>
      simp only [processGroup, List.foldl_cons] at hx
      rcases ih (stepRef acc r) hx with h | ⟨hmem, seen, hseen, hconf⟩
      · simp only [stepRef] at h
        split at h
        · exact Or.inl h
        · rename_i hc
          rcases List.mem_append.mp h with h' | h'
          · exact Or.inl h'
          · simp only [List.mem_singleton] at h'
            subst h'
            refine Or.inr ⟨by simp, acc.1 ++ acc.2, ?_,
              Bool.of_not_eq_true hc⟩
            intro y hy
            rcases hy with hy | hy
            · exact List.mem_append.mpr (Or.inl hy)
            · exact List.mem_append.mpr (Or.inr hy)
      · refine Or.inr ⟨by simp [hmem], seen, ?_, hconf⟩
        intro y hy
        refine hseen y ?_
        simp only [stepRef]
        split <;> rcases hy with hy | hy <;> simp [hy]

theorem processGroup_pairwise (g : List ChunkRef)
    (acc : List ChunkRef × List ChunkRef)
    (h : List.Pairwise refConflictFree acc.1) :
    List.Pairwise refConflictFree (processGroup acc g).1 := by
  induction g generalizing acc with
  | nil => exact h
  | cons r rest ih =>
      simp only [processGroup, List.foldl_cons]
      refine ih (stepRef acc r) ?_
      simp only [stepRef]
      split
      · exact h
      · rename_i hc
        rw [List.pairwise_append]
        refine ⟨h, by simp, ?_⟩
        intro x hx y hy
        simp only [List.mem_singleton] at hy
        subst hy
        have := conflictsB_false _ _ (Bool.of_not_eq_true hc) x
          (List.mem_append.mpr (Or.inl hx))
        exact this

theorem foldGroups_pairwise (gs : List (List ChunkRef))
    (acc : List ChunkRef × List ChunkRef)
    (h : List.Pairwise refConflictFree acc.1) :
    List.Pairwise refConflictFree (gs.foldl processGroup acc).1 := by
  induction gs generalizing acc with
  | nil => exact h
  | cons g gst ih =>
      simp only [List.foldl_cons]
      exact ih _ (processGroup_pairwise g acc h)

theorem foldGroups_provenance (gs : List (List ChunkRef))
    (acc : List ChunkRef × List ChunkRef) (x : ChunkRef)
    (hx : x ∈ (gs.foldl processGroup acc).1) :
    x ∈ acc.1 ∨ ∃ i, ∃ hi : i < gs.length, x ∈ gs[i] ∧
      ∃ seen : List ChunkRef,
        (∀ y, y ∈ acc.1 ∨ y ∈ acc.2 ∨ y ∈ ((gs.take i).flatten) → y ∈ seen) ∧
        conflictsB seen x = false := by
  induction gs generalizing acc with
  | nil => exact Or.inl hx
  | cons g gst ih =>
      simp only [List.foldl_cons] at hx
      rcases ih (processGroup acc g) hx with h | ⟨i, hi, hmem, seen, hseen, hconf⟩
      · rcases processGroup_provenance g acc x h with h' | ⟨hmem, seen, hseen, hconf⟩
        · exact Or.inl h'
        · refine Or.inr ⟨0, by simp, by simpa using hmem, seen, ?_, hconf⟩
          intro y hy
          rcases hy with hy | hy | hy
          · exact hseen y (Or.inl hy)
          · exact hseen y (Or.inr hy)
          · simp at hy
      · refine Or.inr ⟨i + 1, by simpa using Nat.succ_lt_succ hi,
          by simpa using hmem, seen, ?_, hconf⟩
        intro y hy
        refine hseen y ?_
        rcases hy with hy | hy | hy
        · exact Or.inl (processGroup_acc_mono g acc y hy)
        · exact Or.inr (Or.inl (processGroup_rej_mono g acc y hy))
        · rw [List.take_succ_cons, List.flatten_cons] at hy
          rcases List.mem_append.mp hy with hy | hy
          · rcases processGroup_cover g acc y hy with h' | h'
            · exact Or.inl h'
            · exact Or.inr (Or.inl h')
          · exact Or.inr (Or.inr hy)

theorem acceptedRefs_pairwise (refs : List ChunkRef) :
    List.Pairwise refConflictFree (acceptedRefs refs) :=
  foldGroups_pairwise _ _ (by simp)

theorem tsGroups_member_ts (refs : List ChunkRef) (i : Nat)
    (hi : i < (tsGroups refs).length) (r : ChunkRef)
    (hr : r ∈ (tsGroups refs)[i]) :
    ∃ hlen : i < (tsDesc refs).length,
      r ∈ refs ∧ r.timestamp = (tsDesc refs)[i] := by
  have hlen : i < (tsDesc refs).length := by simpa [tsGroups] using hi
  refine ⟨hlen, ?_⟩
  have hgroup : (tsGroups refs)[i] =
      refs.filter (fun x => x.timestamp == (tsDesc refs)[i]) := by
    simp [tsGroups]
  rw [hgroup] at hr
  have := List.mem_filter.mp hr
  exact ⟨this.1, by simpa using this.2⟩

/-- The core of latest-wins: an accepted ref has the greatest timestamp among
all refs of the diff that share its start or its end. -/
theorem accepted_latest (refs : List ChunkRef) (r' : ChunkRef)
    (hacc : r' ∈ acceptedRefs refs) (r : ChunkRef) (hr : r ∈ refs)
    (hshare : r.start = r'.start ∨ r.«end» = r'.«end») :
    tsLe r.timestamp r'.timestamp = true := by
  rcases foldGroups_provenance _ _ _ hacc with h | ⟨i, hi, hmem, seen, hseen, hconf⟩
  · simp at h
  · -- r'.timestamp is the i-th timestamp
    obtain ⟨hlen, -, hts'⟩ := tsGroups_member_ts refs i hi r' hmem
    -- locate r.timestamp in the sorted list
    have hmemts : r.timestamp ∈ tsDesc refs := mem_tsDesc refs r hr
    obtain ⟨j, hj, hjts⟩ := List.mem_iff_getElem.mp hmemts
    by_cases hji : j < i
    · -- r was already seen when r' was accepted: contradiction with sharing
      exfalso
      have hjlen : j < (tsDesc refs).length := Nat.lt_trans hji hlen
      have hjlen2 : j < (tsGroups refs).length := by
        simpa [tsGroups] using hjlen
      have hrg : r ∈ (tsGroups refs)[j] := by
        have hgroup : (tsGroups refs)[j] =
            refs.filter (fun x => x.timestamp == (tsDesc refs)[j]) := by
          simp [tsGroups]
        rw [hgroup, List.mem_filter]
        exact ⟨hr, by simp [hjts]⟩
      have hrseen : r ∈ seen := by
        refine hseen r (Or.inr (Or.inr ?_))
        refine List.mem_flatten.mpr ⟨(tsGroups refs)[j], ?_, hrg⟩
        have hjlt : j < ((tsGroups refs).take i).length := by
          simp only [List.length_take]
          omega
        have htk : ((tsGroups refs).take i)[j] = (tsGroups refs)[j] := by
          simp [List.getElem_take]
        rw [← htk]
        exact List.getElem_mem _
      have := conflictsB_false seen r' hconf r hrseen
      rcases hshare with hsh | hsh
      · exact this.1 hsh
      · exact this.2 hsh
    · -- j ≥ i: the sorted order gives the timestamp inequality
      by_cases hij : i = j
      · subst hij
        rw [← hjts, hts']
        exact tsLe_refl _
      · have hij' : i < j := by omega
        have hpw := List.pairwise_iff_getElem.mp (tsDesc_pairwise refs)
        have := hpw i j hlen hj hij'
        rw [hjts, ← hts'] at this
        exact this

/-! ## Facts about the chain walk -/

/-- Boundary adjacency of two refs (`a.end == b.start`). -/
def refAdjacent (a b : ChunkRef) : Prop := a.«end» = b.start

/-- Declarative form of a completed walk from boundary `b`: every ref is drawn
from the accepted refs and starts at the current boundary; the walk ends at
`LAST`. -/
def GoodChain (acc : List ChunkRef) : String → List ChunkRef → Prop
  | b, [] => b = LAST
  | b, r :: c => r ∈ acc ∧ r.start = b ∧ GoodChain acc r.«end» c

/-- Modelled from the spec §3/§4.5: a reconstructed diff is a single simple
chain over the accepted refs — non-empty, duplicate-free, starting at `FIRST`,
ending at `LAST`, boundary-chained, and drawn from the accepted refs. -/
def SpecChain (acc : List ChunkRef) (c : List ChunkRef) : Prop :=
  c ≠ [] ∧ c.Nodup ∧ (c.headD default).start = FIRST ∧
  (c.getLastD default).«end» = LAST ∧ List.Chain' refAdjacent c ∧
  ∀ r ∈ c, r ∈ acc

theorem FIRST_ne_LAST : FIRST ≠ LAST := by decide

theorem lookupStart_mem (acc : List ChunkRef) (b : String) (r : ChunkRef)
    (h : lookupStart acc b = some r) : r ∈ acc ∧ r.start = b :=
  ⟨List.mem_of_find?_eq_some h, by simpa using List.find?_some h⟩

theorem lookupStart_eq (acc : List ChunkRef)
    (hP : List.Pairwise refConflictFree acc) (r : ChunkRef) (hr : r ∈ acc)
    (b : String) (hb : r.start = b) : lookupStart acc b = some r := by
  induction acc with
  | nil => simp at hr
  | cons a acct ih =>
      rw [List.pairwise_cons] at hP
      rcases List.mem_cons.mp hr with rfl | hr'
      · simp [lookupStart, List.find?, hb]
      · have hne : a.start ≠ b := by
          intro hc
          exact (hP.1 r hr').1 (hc.trans hb.symm)
        simp only [lookupStart, List.find?]
        rw [show (a.start == b) = false by simpa using hne]
        exact ih hP.2 hr'

theorem buildChain_sound (acc : List ChunkRef) (fuel : Nat) (b : String)
    (c : List ChunkRef) (h : buildChain acc fuel b = some c) :
    GoodChain acc b c := by
  induction fuel generalizing b c with
  | zero =>
      simp only [buildChain] at h
      split at h
      · cases h
        rename_i hb
        exact hb
      · cases h
  | succ fuel ih =>
      simp only [buildChain] at h
      split at h
      · cases h
        rename_i hb
        exact hb
      · cases hl : lookupStart acc b with
        | none => rw [hl] at h; cases h
        | some r =>
            rw [hl] at h
            simp only [Option.some_bind, Option.map_eq_some'] at h
            obtain ⟨ctail, hb, rfl⟩ := h
            obtain ⟨hmem, hstart⟩ := lookupStart_mem acc b r hl
            exact ⟨hmem, hstart, ih _ _ hb⟩

theorem buildChain_complete (acc : List ChunkRef)
    (hP : List.Pairwise refConflictFree acc) :
    ∀ (c : List ChunkRef) (b : String) (fuel : Nat), GoodChain acc b c →
    c.length ≤ fuel → ∃ c', buildChain acc fuel b = some c' := by
  intro c
  induction c with
  | nil =>
      intro b fuel hg _
      have hb : b = LAST := hg
      cases fuel <;> exact ⟨[], by simp [buildChain, hb]⟩
  | cons r ctail ih =>
      intro b fuel hg hlen
      obtain ⟨hmem, hstart, hrec⟩ := hg
      cases fuel with
      | zero => simp at hlen
      | succ fuel =>
          by_cases hb : b = LAST
          · exact ⟨[], by simp [buildChain, hb]⟩
          · obtain ⟨c', hc'⟩ := ih r.«end» fuel hrec
              (by simpa using Nat.le_of_succ_le_succ hlen)
            refine ⟨r :: c', ?_⟩
            simp only [buildChain, if_neg hb,
              lookupStart_eq acc hP r hmem b hstart, hc', Option.some_bind,
              Option.map_some']

theorem buildChain_last (acc : List ChunkRef) (f : Nat) :
    buildChain acc f LAST = some [] := by
  cases f <;> simp [buildChain]

theorem buildChain_det (acc : List ChunkRef) (f : Nat) (b : String)
    (c : List ChunkRef) (h : buildChain acc f b = some c) :
    ∀ (f' : Nat) (c' : List ChunkRef), buildChain acc f' b = some c' →
    c' = c := by
  induction f generalizing b c with
  | zero =>
      intro f' c' h'
      simp only [buildChain] at h
      split at h
      · cases h
        rename_i hb
        subst hb
        rw [buildChain_last] at h'
        cases h'
        rfl
      · cases h
  | succ f ih =>
      intro f' c' h'
      simp only [buildChain] at h
      by_cases hb : b = LAST
      · rw [if_pos hb] at h
        cases h
        subst hb
        rw [buildChain_last] at h'
        cases h'
        rfl
      · rw [if_neg hb] at h
        cases hl : lookupStart acc b with
        | none => rw [hl] at h; cases h
        | some r =>
            rw [hl] at h
            simp only [Option.some_bind, Option.map_eq_some'] at h
            obtain ⟨ctail, hbt, rfl⟩ := h
            cases f' with
            | zero => simp [buildChain, hb] at h'
            | succ f' =>
                simp only [buildChain, if_neg hb, hl, Option.some_bind,
                  Option.map_eq_some'] at h'
                obtain ⟨ctail', hbt', rfl⟩ := h'
                rw [ih r.«end» ctail hbt f' ctail' hbt']

theorem buildChain_drop (acc : List ChunkRef) :
    ∀ (c : List ChunkRef) (f : Nat) (b : String),
    buildChain acc f b = some c → ∀ (i : Nat) (hi : i < c.length),
    buildChain acc (f - i) ((c.get ⟨i, hi⟩).start) = some (c.drop i) := by
  intro c
  induction c with
  | nil => intro f b h i hi; simp at hi
  | cons r ctail ih =>
      intro f b h i hi
      cases f with
      | zero =>
          simp only [buildChain] at h
          split at h <;> cases h
      | succ f =>
          have horig := h
          simp only [buildChain] at h
          split at h
          · cases h
          · cases hl : lookupStart acc b with
            | none => rw [hl] at h; cases h
            | some r₀ =>
                rw [hl] at h
                simp only [Option.some_bind, Option.map_eq_some'] at h
                obtain ⟨ctail₀, hbt, heq⟩ := h
                injection heq with h1 h2
                subst h1
                subst h2
                obtain ⟨-, hstart⟩ := lookupStart_mem acc b r₀ hl
                cases i with
                | zero =>
                    simpa [List.get, hstart] using horig
                | succ i =>
                    have := ih f r₀.«end» hbt i (by simpa using hi)
                    simpa [Nat.succ_sub_succ] using this

theorem buildChain_nodup (acc : List ChunkRef) (f : Nat) (b : String)
    (c : List ChunkRef) (h : buildChain acc f b = some c) : c.Nodup := by
  rw [List.nodup_iff_injective_get]
  intro a b' heq
  by_contra hne
  have h1 := buildChain_drop acc c f b h a.1 a.2
  have h2 := buildChain_drop acc c f b h b'.1 b'.2
  have hsame : (c.get ⟨b'.1, b'.2⟩).start = (c.get ⟨a.1, a.2⟩).start := by
    have ha : c.get ⟨a.1, a.2⟩ = c.get a := by congr
    have hb2 : c.get ⟨b'.1, b'.2⟩ = c.get b' := by congr
    rw [ha, hb2, heq]
  rw [hsame] at h2
  have hdrop := buildChain_det acc _ _ _ h1 _ _ h2
  have hlen := congrArg List.length hdrop
  simp only [List.length_drop] at hlen
  have ha' := a.2
  have hb'2 := b'.2
  exact hne (Fin.ext (by omega))

theorem goodChain_members (acc : List ChunkRef) :
    ∀ (c : List ChunkRef) (b : String), GoodChain acc b c →
    ∀ r ∈ c, r ∈ acc := by
  intro c
  induction c with
  | nil => intro b _ r hr; simp at hr
  | cons x ctail ih =>
      intro b hg r hr
      obtain ⟨hm, -, hrec⟩ := hg
      rcases List.mem_cons.mp hr with rfl | hr
      · exact hm
      · exact ih _ hrec r hr

theorem goodChain_shape (acc : List ChunkRef) :
    ∀ (c : List ChunkRef) (b : String), GoodChain acc b c →
    List.Chain' refAdjacent c ∧
    (c ≠ [] → (c.headD default).start = b ∧
      (c.getLastD default).«end» = LAST) := by
  intro c
  induction c with
  | nil => intro b _; exact ⟨List.chain'_nil, fun h => absurd rfl h⟩
  | cons r ctail ih =>
      intro b hg
      obtain ⟨hm, hs, hrec⟩ := hg
      obtain ⟨hchain, hne⟩ := ih r.«end» hrec
      constructor
      · refine List.chain'_cons'.mpr ⟨?_, hchain⟩
        intro y hy
        cases ctail with
        | nil => simp at hy
        | cons x ctail' =>
            simp only [List.head?] at hy
            cases hy
            have := (hne (by simp)).1
            simpa [refAdjacent, List.headD_cons] using this.symm
      · intro _
        refine ⟨by simpa using hs, ?_⟩
        cases ctail with
        | nil => simpa [List.getLastD] using hrec
        | cons x ctail' =>
            rw [List.getLastD_cons, getLastD_of_ne_nil _ (by simp) r default]
            exact (hne (by simp)).2

theorem specChain_of_goodChain (acc : List ChunkRef) (c : List ChunkRef)
    (hg : GoodChain acc FIRST c) (hnd : c.Nodup) : SpecChain acc c := by
  have hne : c ≠ [] := by
    intro hc
    subst hc
    exact FIRST_ne_LAST hg
  obtain ⟨hchain, hshape⟩ := goodChain_shape acc c FIRST hg
  exact ⟨hne, hnd, (hshape hne).1, (hshape hne).2, hchain,
    goodChain_members acc c FIRST hg⟩

theorem goodChain_of_specChain (acc : List ChunkRef) :
    ∀ (c : List ChunkRef) (b : String), c ≠ [] →
    (c.headD default).start = b → (c.getLastD default).«end» = LAST →
    List.Chain' refAdjacent c → (∀ r ∈ c, r ∈ acc) → GoodChain acc b c := by
  intro c
  induction c with
  | nil => intro b h; exact absurd rfl h
  | cons r ctail ih =>
      intro b hne hhead hlast hchain hmem
      refine ⟨hmem r (by simp), by simpa using hhead, ?_⟩
      cases ctail with
      | nil => simpa [List.getLastD] using hlast
      | cons x ctail' =>
          refine ih r.«end» (by simp) ?_ ?_
            (List.chain'_cons.mp hchain).2
            (fun y hy => hmem y (by simp [hy]))
          · have := (List.chain'_cons.mp hchain).1
            simpa [refAdjacent, List.headD_cons] using this.symm
          · rw [List.getLastD_cons] at hlast
            rw [getLastD_of_ne_nil _ (by simp) default r]
            exact hlast

/-! ## Claims C4 and C5 -/

/-- C4: reconstruction is latest-wins — a ref of the reconstructed chain has
the greatest timestamp among all refs of the diff that share its `start` —
and the rejection rule leaves the accepted refs pairwise conflict-free (no two
share a start or share an end). -/
theorem spec_c4 (refs : List ChunkRef) :
    List.Pairwise refConflictFree (acceptedRefs refs) ∧
    ∀ (chain : List ChunkRef) (r r' : ChunkRef),
      reconstruct refs = some chain → r' ∈ chain → r ∈ refs →
      r.start = r'.start → tsLe r.timestamp r'.timestamp = true := by
  refine ⟨acceptedRefs_pairwise refs, ?_⟩
  intro chain r r' hrec hr' hr hsh
  have hg := buildChain_sound _ _ _ _ hrec
  have hmem := goodChain_members _ chain FIRST hg r' hr'
  exact accepted_latest refs r' hmem r hr (Or.inl hsh)

/-- C4 witness: with two refs sharing `FIRST` at timestamps 2000000000 and
1000000000, the reconstructed chain keeps the newer one. -/
theorem spec_c4_witness : tsLe "1000000000" "2000000000" = true :=
  (spec_c4 [⟨FIRST, LAST, "h", "2000000000"⟩,
            ⟨FIRST, LAST, "g", "1000000000"⟩]).2
    [⟨FIRST, LAST, "h", "2000000000"⟩]
    ⟨FIRST, LAST, "g", "1000000000"⟩
    ⟨FIRST, LAST, "h", "2000000000"⟩
    (by decide) (by decide) (by decide) rfl

/-- C5: reconstruction fails (with `BrokenChain`, modelled as `none`) exactly
when no completed `FIRST`-to-`LAST` walk over the accepted refs exists; when it
succeeds it returns a single simple chain from `FIRST` to `LAST` drawn from the
accepted refs (all other refs are discarded). -/
theorem spec_c5 (refs : List ChunkRef) :
    (reconstruct refs = none ↔ ¬ ∃ c, SpecChain (acceptedRefs refs) c) ∧
    (∀ c, reconstruct refs = some c → SpecChain (acceptedRefs refs) c) := by
  have hP := acceptedRefs_pairwise refs
  have hsound : ∀ c, reconstruct refs = some c →
      SpecChain (acceptedRefs refs) c := by
    intro c hc
    have hg := buildChain_sound _ _ _ _ hc
    exact specChain_of_goodChain _ _ hg (buildChain_nodup _ _ _ _ hc)
  refine ⟨⟨?_, ?_⟩, hsound⟩
  · intro hnone hex
    obtain ⟨c, hne, hnd, hh, hl, hch, hm⟩ := hex
    have hg := goodChain_of_specChain _ c FIRST hne hh hl hch hm
    have hlen : c.length ≤ (acceptedRefs refs).length :=
      (hnd.subperm (fun r hr => hm r hr)).length_le
    obtain ⟨c', hc'⟩ := buildChain_complete _ hP c FIRST _ hg hlen
    have hc'' : reconstruct refs = some c' := hc'
    rw [hnone] at hc''
    cases hc''
  · intro hnoex
    cases hrec : reconstruct refs with
    | none => rfl
    | some c => exact absurd ⟨c, hsound c hrec⟩ hnoex

/-- C5 witness: a single ref `FIRST → LAST` reconstructs to the one-element
chain, which is a `SpecChain`. -/
theorem spec_c5_witness :
    SpecChain (acceptedRefs [⟨FIRST, LAST, "h", "1700000000"⟩])
      [⟨FIRST, LAST, "h", "1700000000"⟩] :=
  (spec_c5 [⟨FIRST, LAST, "h", "1700000000"⟩]).2 _ (by decide)

/-! ## Running character totals and the pivot -/

/-- The character total of the first `i` chunks of a run. -/
def prefTotal (run : List Chunk) (i : Nat) : Nat := runTotal (run.take i)

theorem runTotal_append (a b : List Chunk) :
    runTotal (a ++ b) = runTotal a + runTotal b := by
  simp [runTotal]

theorem runTotal_take_drop (run : List Chunk) (p : Nat) :
    runTotal (run.take p) + runTotal (run.drop p) = runTotal run := by
  rw [← runTotal_append, List.take_append_drop]

theorem prefTotal_zero (run : List Chunk) : prefTotal run 0 = 0 := rfl

theorem prefTotal_full (run : List Chunk) :
    prefTotal run run.length = runTotal run := by
  simp [prefTotal]

theorem prefTotal_append_le (a b : List Chunk) (i : Nat) (hi : i ≤ a.length) :
    prefTotal (a ++ b) i = prefTotal a i := by
  simp only [prefTotal, List.take_append_eq_append_take,
    Nat.sub_eq_zero_of_le hi, List.take_zero, List.append_nil]

theorem prefTotal_append_add (a b : List Chunk) (i : Nat) :
    prefTotal (a ++ b) (a.length + i) = runTotal a + prefTotal b i := by
  simp only [prefTotal, List.take_append, runTotal_append]

theorem prefTotal_take (run : List Chunk) (p j : Nat) (hj : j ≤ p) :
    prefTotal (run.take p) j = prefTotal run j := by
  simp only [prefTotal, List.take_take, Nat.min_eq_left hj]

theorem prefTotal_add_drop (run : List Chunk) (p j : Nat) :
    prefTotal run (p + j) = prefTotal run p + prefTotal (run.drop p) j := by
  simp only [prefTotal, List.take_add, runTotal_append]

theorem prefTotal_cons (c : Chunk) (cs : List Chunk) (j : Nat) :
    prefTotal (c :: cs) (j + 1) = charCount c + prefTotal cs j := by
  simp only [prefTotal, List.take_succ_cons, runTotal]
  simp

theorem firstCross_le_length (t acc : Nat) (cs : List Chunk) :
    firstCross t acc cs ≤ cs.length := by
  induction cs generalizing acc with
  | nil => simp [firstCross]
  | cons c cs ih =>
      simp only [firstCross, List.length_cons]
      split
      · omega
      · have := ih (acc + charCount c)
        omega

theorem firstCross_not_crossed (t : Nat) (cs : List Chunk) :
    ∀ (acc j : Nat), 1 ≤ j → j ≤ firstCross t acc cs →
    2 * (acc + prefTotal cs j) ≤ t := by
  induction cs with
  | nil =>
      intro acc j h1 h2
      simp [firstCross] at h2
      omega
  | cons c cs ih =>
      intro acc j h1 h2
      simp only [firstCross] at h2
      split at h2
      · omega
      · rename_i hc
        obtain ⟨j', rfl⟩ : ∃ j', j = j' + 1 := ⟨j - 1, by omega⟩
        rw [prefTotal_cons]
        by_cases hj' : 1 ≤ j'
        · have := ih (acc + charCount c) j' hj' (by omega)
          omega
        · have hj0 : j' = 0 := by omega
          subst hj0
          simp only [prefTotal_zero]
          omega

theorem firstCross_crossed (t : Nat) (cs : List Chunk) :
    ∀ (acc : Nat), firstCross t acc cs < cs.length →
    t < 2 * (acc + prefTotal cs (firstCross t acc cs + 1)) := by
  induction cs with
  | nil => intro acc h; simp [firstCross] at h
  | cons c cs ih =>
      intro acc h
      by_cases hc : t < 2 * (acc + charCount c)
      · simp only [firstCross, if_pos hc]
        rw [prefTotal_cons, prefTotal_zero]
        omega
      · simp only [firstCross, if_neg hc] at h ⊢
        simp only [List.length_cons] at h
        have := ih (acc + charCount c) (by omega)
        have hidx : 1 + firstCross t (acc + charCount c) cs + 1 =
            firstCross t (acc + charCount c) cs + 1 + 1 := by omega
        rw [hidx, prefTotal_cons]
        omega

theorem firstCross_lt_length (t : Nat) (cs : List Chunk) :
    ∀ (acc : Nat), 2 * acc ≤ t → t < 2 * (acc + runTotal cs) →
    firstCross t acc cs < cs.length := by
  induction cs with
  | nil =>
      intro acc h1 h2
      simp only [runTotal, List.map_nil, List.sum_nil] at h2
      omega
  | cons c cs ih =>
      intro acc h1 h2
      simp only [firstCross, List.length_cons]
      split
      · omega
      · rename_i hc
        have hrt : runTotal (c :: cs) = charCount c + runTotal cs := by
          simp [runTotal]
        have := ih (acc + charCount c) (by omega) (by omega)
        omega

theorem firstCross_eq (t : Nat) (cs : List Chunk) :
    ∀ (acc m : Nat),
    (∀ j, 1 ≤ j → j ≤ m → 2 * (acc + prefTotal cs j) ≤ t) →
    2 * acc ≤ t → t < 2 * (acc + prefTotal cs (m + 1)) →
    firstCross t acc cs = m := by
  induction cs with
  | nil =>
      intro acc m h1 h2 h3
      exfalso
      simp only [prefTotal, List.take_nil, runTotal, List.map_nil,
        List.sum_nil] at h3
      omega
  | cons c cs ih =>
      intro acc m h1 h2 h3
      cases m with
      | zero =>
          rw [prefTotal_cons, prefTotal_zero] at h3
          simp only [firstCross]
          rw [if_pos (by omega)]
      | succ m =>
          have hfirst : 2 * (acc + charCount c) ≤ t := by
            have := h1 1 (by omega) (by omega)
            rw [prefTotal_cons, prefTotal_zero] at this
            omega
          simp only [firstCross]
          rw [if_neg (by omega)]
          have := ih (acc + charCount c) m
            (fun j hj1 hjm => by
              have := h1 (j + 1) (by omega) (by omega)
              rw [prefTotal_cons] at this
              omega)
            (by omega)
            (by rw [prefTotal_cons] at h3; omega)
          omega

theorem runTotal_splitRun (budget : Nat) (run : List Chunk) :
    runTotal (splitRun budget run) = runTotal run := by
  induction run using splitRun.induct budget with
  | case1 => rw [splitRun]
  | case2 c => rw [splitRun]
  | case3 c d rest hle =>
      rw [splitRun, if_pos hle]
      simp [runTotal, charCount_mergeRun]
  | case4 c d rest hgt ih1 ih2 =>
      rw [splitRun, if_neg hgt, runTotal_append, ih1, ih2,
        runTotal_take_drop]

theorem splitRun_singleton (budget : Nat) (l : List Chunk)
    (h : l.length = 1) : splitRun budget l = l := by
  cases l with
  | nil => simp at h
  | cons c l' =>
      cases l' with
      | nil => rw [splitRun]
      | cons d l'' => simp at h

theorem splitRun_prefTotal (budget : Nat) (run : List Chunk) :
    ∀ i, i < (splitRun budget run).length →
    ∃ j, j < run.length ∧
      prefTotal (splitRun budget run) i = prefTotal run j := by
  induction run using splitRun.induct budget with
  | case1 => intro i hi; rw [splitRun] at hi; simp at hi
  | case2 c =>
      intro i hi
      rw [splitRun] at hi ⊢
      simp only [List.length_singleton, Nat.lt_one_iff] at hi
      subst hi
      exact ⟨0, by simp, rfl⟩
  | case3 c d rest hle =>
      intro i hi
      rw [splitRun, if_pos hle] at hi ⊢
      simp only [List.length_singleton, Nat.lt_one_iff] at hi
      subst hi
      exact ⟨0, by simp, rfl⟩
  | case4 c d rest hgt ih1 ih2 =>
      intro i hi
      rw [splitRun, if_neg hgt] at hi ⊢
      have hp1 : 1 ≤ splitPoint (c :: d :: rest) := splitPoint_pos c d rest
      have hpn : splitPoint (c :: d :: rest) ≤ rest.length + 1 :=
        splitPoint_le c d rest
      rcases Nat.lt_or_ge i
        (splitRun budget ((c :: d :: rest).take (splitPoint (c :: d :: rest)))).length
        with hcase | hcase
      · obtain ⟨j, hj, hjeq⟩ := ih1 i hcase
        rw [List.length_take] at hj
        refine ⟨j, by simp only [List.length_cons]; omega, ?_⟩
        rw [prefTotal_append_le _ _ _ (Nat.le_of_lt hcase), hjeq,
          prefTotal_take _ _ j (by omega)]
      · obtain ⟨i', rfl⟩ : ∃ i',
            i = (splitRun budget ((c :: d :: rest).take
              (splitPoint (c :: d :: rest)))).length + i' :=
          ⟨i - (splitRun budget ((c :: d :: rest).take
              (splitPoint (c :: d :: rest)))).length, by omega⟩
        rw [List.length_append] at hi
        obtain ⟨j', hj', hjeq'⟩ := ih2 i' (by omega)
        rw [List.length_drop] at hj'
        refine ⟨splitPoint (c :: d :: rest) + j',
          by simp only [List.length_cons] at hj' ⊢; omega, ?_⟩
        rw [prefTotal_append_add, hjeq', runTotal_splitRun,
          prefTotal_add_drop]
        rfl

theorem splitPoint_out (budget : Nat) (run : List Chunk)
    (h2 : 2 ≤ run.length) (hB : budget < runTotal run) :
    splitPoint (splitRun budget (run.take (splitPoint run)) ++
        splitRun budget (run.drop (splitPoint run))) =
      (splitRun budget (run.take (splitPoint run))).length := by
  have htpos : 0 < runTotal run := by omega
  have hkn : firstCross (runTotal run) 0 run < run.length :=
    firstCross_lt_length _ run 0 (by omega) (by omega)
  have hsp : splitPoint run =
      min (firstCross (runTotal run) 0 run + 1) (run.length - 1) := rfl
  have hp1 : 1 ≤ splitPoint run := by omega
  have hpn : splitPoint run ≤ run.length - 1 := by omega
  have hAne : splitRun budget (run.take (splitPoint run)) ≠ [] := by
    refine splitRun_ne_nil _ _ ?_
    intro hc
    have := congrArg List.length hc
    simp only [List.length_take, List.length_nil] at this
    omega
  have hDne : splitRun budget (run.drop (splitPoint run)) ≠ [] := by
    refine splitRun_ne_nil _ _ ?_
    intro hc
    have := congrArg List.length hc
    simp only [List.length_drop, List.length_nil] at this
    omega
  have hAlen : 1 ≤ (splitRun budget (run.take (splitPoint run))).length :=
    List.length_pos.mpr hAne
  have hDlen : 1 ≤ (splitRun budget (run.drop (splitPoint run))).length :=
    List.length_pos.mpr hDne
  have hAtot : runTotal (splitRun budget (run.take (splitPoint run))) =
      prefTotal run (splitPoint run) := runTotal_splitRun _ _
  have hDtot : runTotal (splitRun budget (run.drop (splitPoint run))) =
      runTotal (run.drop (splitPoint run)) := runTotal_splitRun _ _
  have hPD : prefTotal run (splitPoint run) +
      runTotal (run.drop (splitPoint run)) = runTotal run :=
    runTotal_take_drop run (splitPoint run)
  have htotAD : runTotal (splitRun budget (run.take (splitPoint run)) ++
      splitRun budget (run.drop (splitPoint run))) = runTotal run := by
    rw [runTotal_append, hAtot, hDtot, hPD]
  rcases Nat.lt_or_ge (firstCross (runTotal run) 0 run + 1) run.length
    with hkcase | hkcase
  · -- unclamped: the split point is the crossing index plus one
    have hpk : splitPoint run = firstCross (runTotal run) 0 run + 1 := by
      omega
    have hfc : firstCross
        (runTotal (splitRun budget (run.take (splitPoint run)) ++
          splitRun budget (run.drop (splitPoint run)))) 0
        (splitRun budget (run.take (splitPoint run)) ++
          splitRun budget (run.drop (splitPoint run))) =
        (splitRun budget (run.take (splitPoint run))).length - 1 := by
      refine firstCross_eq _ _ 0 _ ?_ (by omega) ?_
      · intro j hj1 hjm
        have hjA : j ≤ (splitRun budget (run.take (splitPoint run))).length := by
          omega
        have e1 := prefTotal_append_le
          (splitRun budget (run.take (splitPoint run)))
          (splitRun budget (run.drop (splitPoint run))) j hjA
        obtain ⟨j', hj', hjeq⟩ := splitRun_prefTotal budget
          (run.take (splitPoint run)) j (by omega)
        rw [List.length_take] at hj'
        have hj'p : j' < splitPoint run := by omega
        have e2 := prefTotal_take run (splitPoint run) j' (Nat.le_of_lt hj'p)
        rcases Nat.eq_zero_or_pos j' with rfl | hj'pos
        · rw [htotAD, e1, hjeq, e2, prefTotal_zero]
          omega
        · have e3 := firstCross_not_crossed (runTotal run) run 0 j' hj'pos
            (by omega)
          rw [htotAD, e1, hjeq, e2]
          omega
      · have hidx : (splitRun budget (run.take (splitPoint run))).length - 1 + 1
            = (splitRun budget (run.take (splitPoint run))).length := by omega
        rw [hidx, htotAD]
        have e1 := prefTotal_append_le
          (splitRun budget (run.take (splitPoint run)))
          (splitRun budget (run.drop (splitPoint run)))
          (splitRun budget (run.take (splitPoint run))).length (Nat.le_refl _)
        have e2 := prefTotal_full (splitRun budget (run.take (splitPoint run)))
        have e3 := firstCross_crossed (runTotal run) run 0 hkn
        have e4 : prefTotal run (splitPoint run) =
            prefTotal run (firstCross (runTotal run) 0 run + 1) := by
          rw [hpk]
        rw [e1, e2, hAtot]
        omega
    rw [splitPoint, hfc, List.length_append]
    omega
  · -- clamped: the crossing sits at the final chunk of the run
    have hkval : firstCross (runTotal run) 0 run = run.length - 1 := by omega
    have hpk : splitPoint run = run.length - 1 := by omega
    have hDl1 : (run.drop (splitPoint run)).length = 1 := by
      rw [List.length_drop]
      omega
    have hDeq : splitRun budget (run.drop (splitPoint run)) =
        run.drop (splitPoint run) := splitRun_singleton _ _ hDl1
    have hDlen1 : (splitRun budget (run.drop (splitPoint run))).length = 1 := by
      rw [hDeq, hDl1]
    have hfc : firstCross
        (runTotal (splitRun budget (run.take (splitPoint run)) ++
          splitRun budget (run.drop (splitPoint run)))) 0
        (splitRun budget (run.take (splitPoint run)) ++
          splitRun budget (run.drop (splitPoint run))) =
        (splitRun budget (run.take (splitPoint run))).length := by
      refine firstCross_eq _ _ 0 _ ?_ (by omega) ?_
      · intro j hj1 hjm
        have e1 := prefTotal_append_le
          (splitRun budget (run.take (splitPoint run)))
          (splitRun budget (run.drop (splitPoint run))) j hjm
        rcases Nat.lt_or_ge j
          (splitRun budget (run.take (splitPoint run))).length with hjlt | hjge
        · obtain ⟨j', hj', hjeq⟩ := splitRun_prefTotal budget
            (run.take (splitPoint run)) j (by omega)
          rw [List.length_take] at hj'
          have hj'p : j' < splitPoint run := by omega
          have e2 := prefTotal_take run (splitPoint run) j' (Nat.le_of_lt hj'p)
          rcases Nat.eq_zero_or_pos j' with rfl | hj'pos
          · rw [htotAD, e1, hjeq, e2, prefTotal_zero]
            omega
          · have e3 := firstCross_not_crossed (runTotal run) run 0 j' hj'pos
              (by omega)
            rw [htotAD, e1, hjeq, e2]
            omega
        · have hj_eq : j = (splitRun budget (run.take (splitPoint run))).length := by
            omega
          subst hj_eq
          have e2 := prefTotal_full (splitRun budget (run.take (splitPoint run)))
          have e3 := firstCross_not_crossed (runTotal run) run 0
            (splitPoint run) hp1 (by omega)
          rw [htotAD, e1, e2, hAtot]
          omega
      · have e1 := prefTotal_append_add
          (splitRun budget (run.take (splitPoint run)))
          (splitRun budget (run.drop (splitPoint run))) 1
        have e2 : prefTotal (splitRun budget (run.drop (splitPoint run))) 1 =
            runTotal (splitRun budget (run.drop (splitPoint run))) := by
          conv_lhs => rw [show (1 : Nat) =
            (splitRun budget (run.drop (splitPoint run))).length from hDlen1.symm]
          exact prefTotal_full _
        rw [htotAD, e1, e2, hAtot, hDtot]
        omega
    rw [splitPoint, hfc, List.length_append]
    omega

theorem splitRun_of_ge_two (budget : Nat) (l : List Chunk) (h : 2 ≤ l.length) :
    splitRun budget l =
      if runTotal l ≤ budget then [mergeRun l]
      else splitRun budget (l.take (splitPoint l)) ++
           splitRun budget (l.drop (splitPoint l)) := by
  cases l with
  | nil => simp at h
  | cons a l' =>
      cases l' with
      | nil => simp at h
      | cons b l'' => rw [splitRun]

theorem splitRun_idem (budget : Nat) (run : List Chunk) :
    splitRun budget (splitRun budget run) = splitRun budget run := by
  induction run using splitRun.induct budget with
  | case1 => rw [splitRun]; rw [splitRun]
  | case2 c => rw [splitRun]; rw [splitRun]
  | case3 c d rest hle =>
      rw [splitRun, if_pos hle]
      rw [splitRun]
  | case4 c d rest hgt ih1 ih2 =>
      rw [splitRun, if_neg hgt]
      have hp1 : 1 ≤ splitPoint (c :: d :: rest) := splitPoint_pos c d rest
      have hpn : splitPoint (c :: d :: rest) ≤ rest.length + 1 :=
        splitPoint_le c d rest
      have hAne : splitRun budget
          ((c :: d :: rest).take (splitPoint (c :: d :: rest))) ≠ [] :=
        splitRun_ne_nil _ _ (take_splitPoint_ne_nil c d rest)
      have hDne : splitRun budget
          ((c :: d :: rest).drop (splitPoint (c :: d :: rest))) ≠ [] :=
        splitRun_ne_nil _ _ (drop_splitPoint_ne_nil c d rest)
      have hAlen := List.length_pos.mpr hAne
      have hDlen := List.length_pos.mpr hDne
      have htot : runTotal (splitRun budget
            ((c :: d :: rest).take (splitPoint (c :: d :: rest))) ++
          splitRun budget
            ((c :: d :: rest).drop (splitPoint (c :: d :: rest)))) =
          runTotal (c :: d :: rest) := by
        rw [runTotal_append, runTotal_splitRun, runTotal_splitRun,
          runTotal_take_drop]
      rw [splitRun_of_ge_two budget _ (by rw [List.length_append]; omega)]
      rw [if_neg (by rw [htot]; exact hgt)]
      rw [splitPoint_out budget (c :: d :: rest)
        (by simp only [List.length_cons]; omega) (by omega)]
      rw [List.take_left, List.drop_left, ih1, ih2]

/-! ## Heads, ends and adjacency through the split -/

theorem headD_append_left {α : Type} (a b : List α) (d : α) (h : a ≠ []) :
    (a ++ b).headD d = a.headD d := by
  cases a with
  | nil => exact absurd rfl h
  | cons x xs => rfl

theorem getLastD_append_right {α : Type} (a b : List α) (d : α) (h : b ≠ []) :
    (a ++ b).getLastD d = b.getLastD d := by
  induction a with
  | nil => rfl
  | cons x xs ih =>
      rw [List.cons_append, List.getLastD_cons,
        getLastD_of_ne_nil (xs ++ b) (by
          intro hc
          exact h (List.append_eq_nil.mp hc).2) x d, ih]

theorem getLastD_drop {α : Type} (l : List α) (p : Nat) (d : α)
    (h : l.drop p ≠ []) : (l.drop p).getLastD d = l.getLastD d := by
  conv_rhs => rw [← List.take_append_drop p l]
  rw [getLastD_append_right _ _ _ h]

theorem headD_take_cons {α : Type} (x : α) (xs : List α) (p : Nat) (d : α)
    (h : 1 ≤ p) : ((x :: xs).take p).headD d = x := by
  cases p with
  | zero => omega
  | succ p => rfl

theorem splitRun_headD_start (budget : Nat) (run : List Chunk) :
    ((splitRun budget run).headD default).start = (run.headD default).start := by
  induction run using splitRun.induct budget with
  | case1 => rw [splitRun]
  | case2 c => rw [splitRun]
  | case3 c d rest hle =>
      rw [splitRun, if_pos hle]
      simp [mergeRun]
  | case4 c d rest hgt ih1 ih2 =>
      rw [splitRun, if_neg hgt]
      have hp1 : 1 ≤ splitPoint (c :: d :: rest) := splitPoint_pos c d rest
      rw [headD_append_left _ _ _
        (splitRun_ne_nil _ _ (take_splitPoint_ne_nil c d rest)), ih1,
        headD_take_cons c (d :: rest) _ _ hp1]
      rfl

theorem splitRun_getLastD_end (budget : Nat) (run : List Chunk) :
    ((splitRun budget run).getLastD default).«end» =
      (run.getLastD default).«end» := by
  induction run using splitRun.induct budget with
  | case1 => rw [splitRun]
  | case2 c => rw [splitRun]
  | case3 c d rest hle =>
      rw [splitRun, if_pos hle]
      simp [mergeRun]
  | case4 c d rest hgt ih1 ih2 =>
      rw [splitRun, if_neg hgt]
      rw [getLastD_append_right _ _ _
        (splitRun_ne_nil _ _ (drop_splitPoint_ne_nil c d rest)), ih2,
        getLastD_drop _ _ _ (drop_splitPoint_ne_nil c d rest)]

theorem head?_eq_headD {α : Type} (l : List α) (d : α) (h : l ≠ []) :
    l.head? = some (l.headD d) := by
  cases l with
  | nil => exact absurd rfl h
  | cons x xs => rfl

theorem getLast?_eq_getLastD {α : Type} (l : List α) (d : α) (h : l ≠ []) :
    l.getLast? = some (l.getLastD d) := by
  cases l with
  | nil => exact absurd rfl h
  | cons x xs =>
      rw [List.getLast?_eq_getLast _ (by simp), List.getLastD_eq_getLast?,
        List.getLast?_eq_getLast _ (by simp)]
      rfl

theorem splitRun_chain (budget : Nat) (run : List Chunk)
    (h : List.Chain' adjacent run) :
    List.Chain' adjacent (splitRun budget run) := by
  induction run using splitRun.induct budget with
  | case1 => rw [splitRun]; exact h
  | case2 c => rw [splitRun]; exact h
  | case3 c d rest hle =>
      rw [splitRun, if_pos hle]
      simp
  | case4 c d rest hgt ih1 ih2 =>
      rw [splitRun, if_neg hgt]
      have hAne := splitRun_ne_nil budget _ (take_splitPoint_ne_nil c d rest)
      have hDne := splitRun_ne_nil budget _ (drop_splitPoint_ne_nil c d rest)
      have h' : List.Chain' adjacent
          ((c :: d :: rest).take (splitPoint (c :: d :: rest)) ++
           (c :: d :: rest).drop (splitPoint (c :: d :: rest))) := by
        rw [List.take_append_drop]
        exact h
      have hcut := (List.chain'_append.mp h').2.2
      refine List.chain'_append.mpr ⟨ih1 (h.take _), ih2 (h.drop _), ?_⟩
      intro x hx y hy
      rw [getLast?_eq_getLastD _ default hAne] at hx
      rw [head?_eq_headD _ default hDne] at hy
      simp only [Option.mem_def, Option.some_inj] at hx hy
      subst hx
      subst hy
      show adjacent _ _
      unfold adjacent
      rw [splitRun_getLastD_end, splitRun_headD_start]
      exact hcut _ (by
          rw [getLast?_eq_getLastD _ default (take_splitPoint_ne_nil c d rest)]
          exact rfl) _ (by
          rw [head?_eq_headD _ default (drop_splitPoint_ne_nil c d rest)]
          exact rfl)

/-! ## Maximal runs through the split -/

/-- Two adjacent maximal runs do not chain at the junction. -/
def breakRel (r₁ r₂ : List Chunk) : Prop :=
  (r₁.getLastD default).«end» ≠ (r₂.headD default).start

theorem toRuns_ne_nil (cs : List Chunk) : ∀ R ∈ toRuns cs, R ≠ [] := by
  induction cs using toRuns.induct with
  | case1 => simp [toRuns]
  | case2 c => simp [toRuns]
  | case3 c d rest e es rs heq hadj ih =>
      simp only [toRuns, heq, if_pos hadj]
      intro R hR
      rcases List.mem_cons.mp hR with rfl | hR
      · simp
      · exact ih R (by rw [heq]; simp [hR])
  | case4 c d rest e es rs heq hadj ih =>
      simp only [toRuns, heq, if_neg hadj]
      intro R hR
      rcases List.mem_cons.mp hR with rfl | hR
      · simp
      · exact ih R (by rw [heq]; exact hR)
  | case5 c d rest hnone ih =>
      obtain ⟨ds, rs, h⟩ := toRuns_shape d rest
      exact absurd h (by intro h; exact hnone _ _ _ h)

theorem toRuns_breaks (cs : List Chunk) :
    List.Chain' breakRel (toRuns cs) := by
  induction cs using toRuns.induct with
  | case1 => simp [toRuns]
  | case2 c => simp [toRuns]
  | case3 c d rest e es rs heq hadj ih =>
      simp only [toRuns, heq, if_pos hadj]
      rw [heq] at ih
      obtain ⟨hrel, hchain⟩ := List.chain'_cons'.mp ih
      refine List.chain'_cons'.mpr ⟨?_, hchain⟩
      intro y hy
      have hlast : (c :: e :: es).getLastD default =
          (e :: es).getLastD default := by
        rw [List.getLastD_cons]
        exact getLastD_of_ne_nil _ (by simp) c default
      unfold breakRel
      rw [hlast]
      exact hrel y hy
  | case4 c d rest e es rs heq hadj ih =>
      simp only [toRuns, heq, if_neg hadj]
      rw [heq] at ih
      refine List.chain'_cons.mpr ⟨?_, ih⟩
      unfold breakRel
      simpa using hadj
  | case5 c d rest hnone ih =>
      obtain ⟨ds, rs, h⟩ := toRuns_shape d rest
      exact absurd h (by intro h; exact hnone _ _ _ h)

theorem toRuns_append (A tail : List Chunk) (hne : A ≠ [])
    (hch : List.Chain' adjacent A)
    (hbr : tail = [] ∨ (A.getLastD default).«end» ≠ (tail.headD default).start) :
    toRuns (A ++ tail) = A :: toRuns tail := by
  induction A with
  | nil => exact absurd rfl hne
  | cons c A' ih =>
      cases A' with
      | nil =>
          cases tail with
          | nil => rfl
          | cons t ts =>
              rcases hbr with hbr | hbr
              · cases hbr
              · obtain ⟨ds, rs, hshape⟩ := toRuns_shape t ts
                have hct : ¬ c.«end» = t.start := by simpa using hbr
                show toRuns (c :: t :: ts) = [c] :: toRuns (t :: ts)
                simp only [toRuns, hshape, if_neg hct]
      | cons c' A'' =>
          have hch' := List.chain'_cons.mp hch
          have hbr' : tail = [] ∨
              ((c' :: A'').getLastD default).«end» ≠
                (tail.headD default).start := by
            rcases hbr with hbr | hbr
            · exact Or.inl hbr
            · refine Or.inr ?_
              intro hc
              refine hbr ?_
              rw [List.getLastD_cons,
                getLastD_of_ne_nil (c' :: A'') (by simp) c default]
              exact hc
          have hinner : toRuns ((c' :: A'') ++ tail) =
              (c' :: A'') :: toRuns tail := ih (by simp) hch'.2 hbr'
          have hcc : c.«end» = c'.start := hch'.1
          simp only [List.cons_append] at hinner ⊢
          simp only [toRuns, hinner, if_pos hcc]

theorem toRuns_of_runs (runs : List (List Chunk))
    (hne : ∀ R ∈ runs, R ≠ []) (hch : ∀ R ∈ runs, List.Chain' adjacent R)
    (hbr : List.Chain' breakRel runs) : toRuns runs.flatten = runs := by
  induction runs with
  | nil => rfl
  | cons R rest ih =>
      rw [List.flatten_cons]
      rw [toRuns_append R rest.flatten (hne R (by simp)) (hch R (by simp)) ?_]
      · rw [ih (fun S hS => hne S (by simp [hS]))
          (fun S hS => hch S (by simp [hS])) (List.chain'_cons'.mp hbr).2]
      · cases rest with
        | nil => exact Or.inl rfl
        | cons R₂ rest' =>
            refine Or.inr ?_
            rw [List.flatten_cons,
              headD_append_left _ _ _ (hne R₂ (by simp))]
            have := (List.chain'_cons'.mp hbr).1 R₂ (by simp [List.head?])
            exact this

theorem breaks_map_splitRun (runs : List (List Chunk)) (budget : Nat)
    (hne : ∀ R ∈ runs, R ≠ []) (hbr : List.Chain' breakRel runs) :
    List.Chain' breakRel (runs.map (splitRun budget)) := by
  induction runs with
  | nil => simp
  | cons R rest ih =>
      rw [List.map_cons]
      refine List.chain'_cons'.mpr ⟨?_,
        ih (fun S hS => hne S (by simp [hS])) (List.chain'_cons'.mp hbr).2⟩
      intro y hy
      cases rest with
      | nil => simp at hy
      | cons R₂ rest' =>
          simp only [List.map_cons, List.head?, Option.mem_def,
            Option.some_inj] at hy
          subst hy
          have hb := (List.chain'_cons'.mp hbr).1 R₂ (by simp [List.head?])
          unfold breakRel at hb ⊢
          rw [splitRun_getLastD_end, splitRun_headD_start]
          exact hb

/-! ## Claim C7 -/

/-- C7: `split` is idempotent — for every chunk collection `X` and budget `B`,
`X.split(B).split(B) == X.split(B)`. -/
theorem spec_c7 (X : List Chunk) (budget : Nat) :
    splitChunks budget (splitChunks budget X) = splitChunks budget X := by
  have hruns : toRuns (splitChunks budget X) =
      (toRuns X).map (splitRun budget) := by
    rw [splitChunks]
    refine toRuns_of_runs _ ?_ ?_ ?_
    · intro R hR
      obtain ⟨R₀, hR₀, rfl⟩ := List.mem_map.mp hR
      exact splitRun_ne_nil _ _ (toRuns_ne_nil X R₀ hR₀)
    · intro R hR
      obtain ⟨R₀, hR₀, rfl⟩ := List.mem_map.mp hR
      exact splitRun_chain _ _ (toRuns_chain X R₀ hR₀)
    · exact breaks_map_splitRun _ _ (toRuns_ne_nil X) (toRuns_breaks X)
  conv_lhs => rw [splitChunks, hruns, List.map_map]
  have hcomp : (toRuns X).map (splitRun budget ∘ splitRun budget) =
      (toRuns X).map (splitRun budget) :=
    List.map_congr_left (fun R _ => splitRun_idem budget R)
  rw [hcomp]
  rfl

end LearnPy
